import Mathlib

/-!
Verification development for the vdelta-screener repository.

We give a shallow embedding, in Lean 4, of the parts of the code that the
specification's claims are about:

* `src/data/binance_ws.py` — the `TradeCollector` (append path of `on_message`,
  `_prune_locked`, `snapshot`), with machine floats modelled by `ℚ`,
  millisecond timestamps by `ℤ`, Python dicts by insertion-ordered
  association lists, and the `deque` per symbol by a `List` in append order.
* `src/features/deltas.py` — `compute_vdelta`, `normalize_by_mcap`,
  `cross_sectional_zscore` over a small model of pandas DataFrames
  (`PFrame`), with float `NaN`/`inf` modelled by explicit constructors of
  `PVal`.  Object identity (needed to talk about mutation of the caller's
  frame) is modelled by a heap of frames addressed by index.
* `src/components/dominance_table.py` — `_slice_window`, `_compute_bull_bear`,
  `compute_multi_tf_table` (pandas `groupby(...).sum()` sorts group keys
  lexically; `idxmax`/`idxmin` return the first index attaining the
  extremum, which we embed by a fold keeping the first strict winner).
* the flow-share block of `src/views/screener.py` (lines 190-207), embedded
  with explicit column presence so that a missing column surfaces as the
  `KeyError` pandas would raise.
-/

namespace VDelta


/-! ## Association lists standing in for Python dicts

Python dicts preserve insertion order: updating an existing key keeps its
position, a new key is appended at the end.  `setAssoc`/`getAssoc` mirror
that. -/

/-- Look a key up in an insertion-ordered association list. -/
def getAssoc {α : Type} (l : List (String × α)) (k : String) : Option α :=
  match l with
  | [] => none
  | (k', v) :: rest => if k' = k then some v else getAssoc rest k

/-- Update a key (in place) or append a new key at the end, as a Python dict
assignment does. -/
def setAssoc {α : Type} (l : List (String × α)) (k : String) (v : α) :
    List (String × α) :=
  match l with
  | [] => [(k, v)]
  | (k', v') :: rest =>
    if k' = k then (k', v) :: rest else (k', v') :: setAssoc rest k v

/-- Keys of an association list, in insertion order. -/
def assocKeys {α : Type} (l : List (String × α)) : List String := l.map (·.1)

/-! ## Python string comparison

Python compares strings lexicographically by code point; so do pandas when
sorting group keys.  We embed that order directly on the character data (the
`String.lt` of core Lean is the same order, but its iterator-based decision
procedure does not reduce in the kernel, so we use our own). -/

/-- Code-point lexicographic strict order on character lists. -/
def charListLt : List Char → List Char → Bool
  | [], [] => false
  | [], _ :: _ => true
  | _ :: _, [] => false
  | a :: as, b :: bs =>
    if a < b then true
    else if a = b then charListLt as bs else false

/-- Python's `<` on strings (code-point lexicographic). -/
def pyStrLt (a b : String) : Bool := charListLt a.data b.data

/-- Python's `<=` on strings. -/
def pyStrLe (a b : String) : Bool := pyStrLt a b || a = b

/-! ## The windowed trade collector (`src/data/binance_ws.py`)

A retained trade is the tuple `(ts_ms, qty_signed, notional_signed)` stored in
the per-symbol deque `self._trades[symbol]`; we model the deque by a `List` in
append order (appends at the back, `popleft` from the front).  Python floats
are modelled by `ℚ` (the float sums in scope never overflow in the claims'
inputs, and `ℚ` makes every comparison exact); millisecond timestamps by `ℤ`.
-/

/-- One retained trade of the deque: `(ts_ms, qty_signed, notional_signed)`. -/
structure Trade where
  ts : Int
  sq : Rat
  sn : Rat
deriving DecidableEq, Repr

/-- State of a `TradeCollector`: the `window_seconds` configuration, the
per-symbol deques (`self._trades`, a dict in symbol insertion order) and the
last-price cache (`self._last_price`).  The websocket/thread fields play no
role in any claim. -/
structure Collector where
  window_seconds : Int
  trades : List (String × List Trade)
  last_price : List (String × Rat)
deriving DecidableEq, Repr

/-- Fresh collector, as built by `TradeCollector.__init__`. -/
def initCollector (w : Int) : Collector :=
  { window_seconds := w, trades := [], last_price := [] }

/-- Embedding of `_prune_locked` (lines 176-181): pop trades from the front of
the deque while they are older than `now_ms - window_seconds * 1000`. -/
def prune_locked (window_seconds now_ms : Int) (dq : List Trade) : List Trade :=
  dq.dropWhile (fun e => e.ts < now_ms - window_seconds * 1000)

/-- Embedding of the state change of `on_message`'s success path
(lines 87-91): record the last price, append the signed trade to the symbol's
deque, and prune that deque with `now_ms = ts_ms`.  (Accessing the
`defaultdict` creates the symbol's entry; a Python dict keeps insertion
order, which `setAssoc` mirrors.) -/
def appendEvent (c : Collector) (symbol : String) (ts_ms : Int)
    (price signed_qty : Rat) : Collector :=
  let dq := (getAssoc c.trades symbol).getD []
  let dq := dq ++ [⟨ts_ms, signed_qty, signed_qty * price⟩]
  let dq := prune_locked c.window_seconds ts_ms dq
  { c with
    last_price := setAssoc c.last_price symbol price,
    trades := setAssoc c.trades symbol dq }

/-- One snapshot row (lines 157-165): columns
`symbol, vdelta_qty, vdelta_notional, last_price, last_ts`; `last_price` is
`None` when the symbol is missing from the cache, `last_ts` is `NaT` when no
trade of the window contributed. -/
structure SnapRow where
  symbol : String
  vdelta_qty : Rat
  vdelta_notional : Rat
  last_price : Option Rat
  last_ts : Option Int
deriving DecidableEq, Repr

/-- Accumulated `vq` of the summation loop (lines 149-156): the sum of
`signed_qty` over entries with `ts_ms >= cutoff_ms`.  The Python loop folds
left to right; rational addition is associative and commutative, so the
structural recursion below computes the same value. -/
def loopVq (cutoff : Int) : List Trade → Rat
  | [] => 0
  | e :: rest => (if cutoff ≤ e.ts then e.sq else 0) + loopVq cutoff rest

/-- Accumulated `vn` of the same loop: the sum of `signed_notional` over
entries with `ts_ms >= cutoff_ms`. -/
def loopVn (cutoff : Int) : List Trade → Rat
  | [] => 0
  | e :: rest => (if cutoff ≤ e.ts then e.sn else 0) + loopVn cutoff rest

/-- Accumulated `last_ts` of the same loop: the loop keeps the largest
`ts_ms` seen among entries with `ts_ms >= cutoff_ms`, starting from `None`. -/
def loopLastTs (cutoff : Int) : List Trade → Option Int
  | [] => none
  | e :: rest =>
    let lt := loopLastTs cutoff rest
    if cutoff ≤ e.ts then
      match lt with
      | none => some e.ts
      | some t => some (max e.ts t)
    else lt

/-- Embedding of the per-symbol body of `snapshot` (lines 146-165): prune the
deque at `now_ms`, then sum `signed_qty`/`signed_notional` over retained
entries with `ts_ms >= cutoff_ms` and record the most recent such `ts_ms`.
Line 163 guards with Python truthiness — `... if last_ts else pd.NaT` — so a
most-recent timestamp of exactly `0` also yields `NaT`, which the `bind`
below reproduces. -/
def snapRowFor (c : Collector) (now_ms : Int) (sym : String)
    (dq : List Trade) : SnapRow :=
  let cutoff := now_ms - c.window_seconds * 1000
  let dq := prune_locked c.window_seconds now_ms dq
  { symbol := sym,
    vdelta_qty := loopVq cutoff dq,
    vdelta_notional := loopVn cutoff dq,
    last_price := getAssoc c.last_price sym,
    last_ts := (loopLastTs cutoff dq).bind
      (fun t => if t = 0 then none else some t) }

/-- Insert one row into a list already sorted by non-increasing
`|vdelta_notional|`, keeping the inserted row before rows with an equal key:
together with `sortRowsDesc` this reproduces what
`df.sort_values("vdelta_notional", key=lambda s: s.abs(), ascending=False,
na_position="last")` does on these rows — a stable descending sort on
`|vdelta_notional|` (`na_position` concerns NaN sort keys, which cannot arise:
every `vdelta_notional` is a finite float sum). -/
def insertRowDesc (r : SnapRow) : List SnapRow → List SnapRow
  | [] => [r]
  | x :: xs =>
    if |r.vdelta_notional| < |x.vdelta_notional| then x :: insertRowDesc r xs
    else r :: x :: xs

/-- Stable sort by non-increasing `|vdelta_notional|` (see `insertRowDesc`). -/
def sortRowsDesc : List SnapRow → List SnapRow
  | [] => []
  | r :: rs => insertRowDesc r (sortRowsDesc rs)

/-- Embedding of `snapshot` (lines 134-172).  The Python signature is
`snapshot(self, now: Optional[datetime])`: when `now is None` the wall clock
`datetime.now(timezone.utc)` is used, which we pass in explicitly as
`wallclock_ms`.  Returns one row per symbol of `self._trades` (its in-place
pruning only affects later snapshots, not the returned rows, since the
summation filters by the same cutoff). -/
def snapshot (c : Collector) (now : Option Int) (wallclock_ms : Int) :
    List SnapRow :=
  let now_ms := now.getD wallclock_ms
  let rows := c.trades.map (fun p => snapRowFor c now_ms p.1 p.2)
  if rows = [] then [] else sortRowsDesc rows

/-- One decoded append, as dispatched by `on_message` into the collector:
symbol (upper-cased from the stream name), trade time, price and the signed
quantity. -/
structure AppendEv where
  symbol : String
  ts : Int
  price : Rat
  sq : Rat
deriving DecidableEq, Repr

/-- Run a sequence of appends against a fresh collector with the given
`window_seconds`. -/
def runAppends (w : Int) (evs : List AppendEv) : Collector :=
  evs.foldl (fun c e => appendEvent c e.symbol e.ts e.price e.sq) (initCollector w)

/-- Specification-side signed window sum: total `signed_qty` of the appended
events of `sym` whose `event_time` is at least `cutoff` (inclusive lower
bound). -/
def windowVq (evs : List AppendEv) (sym : String) (cutoff : Int) : Rat :=
  (evs.map (fun e => if e.symbol = sym ∧ cutoff ≤ e.ts then e.sq else 0)).sum

/-- Run a sequence of appends against an arbitrary starting collector
(generalizes `runAppends` for the induction proofs below). -/
def runFrom (c : Collector) (evs : List AppendEv) : Collector :=
  evs.foldl (fun c e => appendEvent c e.symbol e.ts e.price e.sq) c

/-! ## The FlowEvent decoder (`on_message`, lines 64-94)

A raw websocket frame is JSON text.  We model the result of the parsing
attempts field by field: `valid_json = false` stands for text that
`json.loads` rejects; each `Option` field is `none` when the key is absent
from `payload["data"]` (or the value cannot be converted by
`int`/`float`), which makes the corresponding conversion raise; the whole
body runs inside `try/except Exception`, so any such failure returns without
touching the collector. -/

structure RawMsg where
  valid_json : Bool
  data_T : Option Int
  data_t : Option Int
  p : Option Rat
  q : Option Rat
  m : Option Bool
  stream : String
deriving DecidableEq, Repr

/-- Embedding of `symbol = stream.split("@", 1)[0].upper()` (line 79): the
part of the stream name before the first `"@"`, upper-cased. -/
def streamSymbol (stream : String) : String :=
  String.mk ((stream.data.takeWhile (fun c => c ≠ '@')).map Char.toUpper)

/-- Embedding of the decoding part of `on_message` (lines 66-85).  `none`
means some step raised (and the `except` clause swallowed it): `json.loads`
failed, or `int(data.get("T") or data.get("t"))` got `None` — note the
Python `or` also falls through to `"t"` when `"T"` is present but zero — or
`data["p"]`/`data["q"]`/`data["m"]` is missing or unparseable.  On success it
returns `(symbol, ts_ms, price, signed_qty)` with
`signed_qty = qty if not buyer_is_maker else -qty`. -/
def decodeEvent (msg : RawMsg) : Option (String × Int × Rat × Rat) :=
  if msg.valid_json = false then none
  else
    let tRaw : Option Int :=
      match msg.data_T with
      | some T => if T = 0 then msg.data_t else some T
      | none => msg.data_t
    match tRaw, msg.p, msg.q, msg.m with
    | some ts_ms, some price, some qty, some buyer_is_maker =>
      some (streamSymbol msg.stream, ts_ms, price,
        if buyer_is_maker then -qty else qty)
    | _, _, _, _ => none

/-- Embedding of the full `on_message` callback: on a decodable trade frame
the event is appended (lines 87-91: last price, deque append, prune at the
event's own time); on any failure the `except Exception: return` handler
(lines 92-94) leaves the collector untouched. -/
def on_message (c : Collector) (msg : RawMsg) : Collector :=
  match decodeEvent msg with
  | none => c
  | some (symbol, ts_ms, price, signed_qty) =>
    appendEvent c symbol ts_ms price signed_qty

/-! ## The rotation/dominance engine (`src/components/dominance_table.py`)

The input frame has columns `timestamp, symbol, vdelta_eff`; we embed it as a
list of rows with that fixed schema (so the defensive
`"vdelta_eff" not in sliced.columns` branch of `_compute_bull_bear` can never
fire in the embedding).  Timestamps are integers in seconds, matching
`timedelta(seconds=window_sec)` arithmetic.  `groupby("symbol")` sorts the
group keys lexically (pandas `sort=True` default), and `idxmax`/`idxmin`
return the first index attaining the extremum. -/

structure FlowRow where
  timestamp : Int
  symbol : String
  vdelta_eff : Rat
deriving DecidableEq, Repr

/-- Largest timestamp of a nonempty frame (`df["timestamp"].max()`). -/
def maxTimestamp : List FlowRow → Int
  | [] => 0
  | r :: rs => (rs.map (·.timestamp)).foldl max r.timestamp

/-- Embedding of `_slice_window` (lines 18-28): rows of the last `window_sec`
seconds, measured back from the frame's own latest timestamp. -/
def slice_window (df : List FlowRow) (window_sec : Int) : List FlowRow :=
  if df = [] then df
  else
    let now_ts := maxTimestamp df
    let cutoff := now_ts - window_sec
    df.filter (fun r => cutoff ≤ r.timestamp)

/-- Insert a symbol into a lexically sorted duplicate-free list, keeping it
sorted and duplicate-free (the embedding of the sorted group index that
`groupby("symbol")` builds). -/
def insertSortedSym (s : String) : List String → List String
  | [] => [s]
  | x :: xs =>
    if pyStrLt s x then s :: x :: xs
    else if s = x then x :: xs
    else x :: insertSortedSym s xs

/-- The sorted, duplicate-free group keys of a frame. -/
def sortedSyms (rows : List FlowRow) : List String :=
  rows.foldr (fun r acc => insertSortedSym r.symbol acc) []

/-- Per-symbol sum of `vdelta_eff` (`groupby("symbol")["vdelta_eff"].sum()`
for a single group key). -/
def symSum (rows : List FlowRow) (s : String) : Rat :=
  (rows.map (fun r => if r.symbol = s then r.vdelta_eff else 0)).sum

/-- Embedding of `grouped = sliced.groupby("symbol")["vdelta_eff"].sum()`
(line 48): the per-symbol sums, indexed by the lexically sorted group keys. -/
def grouped (rows : List FlowRow) : List (String × Rat) :=
  (sortedSyms rows).map (fun s => (s, symSum rows s))

/-- Embedding of `total_abs = grouped.abs().sum()` (line 53). -/
def total_abs (g : List (String × Rat)) : Rat :=
  (g.map (fun p => |p.2|)).sum

/-- Embedding of `Series.idxmax` on a nonempty series: scan left to right and
replace the running best only on a strictly larger value, so the first index
attaining the maximum wins — exactly pandas' first-occurrence rule. -/
def idxmaxFold (b : String × Rat) (l : List (String × Rat)) : String × Rat :=
  l.foldl (fun best q => if best.2 < q.2 then q else best) b

def idxmax : List (String × Rat) → String × Rat
  | [] => ("", 0)
  | p :: ps => idxmaxFold p ps

/-- Embedding of `Series.idxmin` (first index attaining the minimum). -/
def idxminFold (b : String × Rat) (l : List (String × Rat)) : String × Rat :=
  l.foldl (fun best q => if q.2 < best.2 then q else best) b

def idxmin : List (String × Rat) → String × Rat
  | [] => ("", 0)
  | p :: ps => idxminFold p ps

/-- Embedding of `Series.max` on a nonempty series of shares. -/
def maxShare : List (String × Rat) → Rat
  | [] => 0
  | p :: ps => (ps.map (·.2)).foldl max p.2

/-- Embedding of `Series.min`. -/
def minShare : List (String × Rat) → Rat
  | [] => 0
  | p :: ps => (ps.map (·.2)).foldl min p.2

/-- The signed-share series `share = grouped / total_abs` (line 58) of the
window of `df` of length `window_sec`. -/
def shareList (df : List FlowRow) (window_sec : Int) : List (String × Rat) :=
  let g := grouped (slice_window df window_sec)
  g.map (fun p => (p.1, p.2 / total_abs g))

/-- Embedding of `_compute_bull_bear` (lines 31-66).  Returns `None` for an
empty window, an empty grouping, or zero total absolute flow; otherwise the
4-tuple `(bull_sym, bull_val, bear_sym, bear_val)`. -/
def compute_bull_bear (df : List FlowRow) (window_sec : Int) :
    Option (String × Rat × String × Rat) :=
  let sliced := slice_window df window_sec
  if sliced = [] then none
  else
    let g := grouped sliced
    if g = [] then none
    else
      let t := total_abs g
      if t = 0 then none
      else
        let share := g.map (fun p => (p.1, p.2 / t))
        some ((idxmax share).1, maxShare share, (idxmin share).1,
          minShare share)

/-- The fixed timeframe menu `TF_WINDOWS` (lines 8-15). -/
def TF_WINDOWS : List (String × Int) :=
  [("5m", 5 * 60), ("15m", 15 * 60), ("30m", 30 * 60), ("1h", 60 * 60),
    ("4h", 4 * 60 * 60), ("1D", 24 * 60 * 60)]

/-- One row of the multi-timeframe table (lines 80-110).  The string cells
`"-"` of the insufficient-data variant are modelled by `none`; the direction
arrows by `some true` (up) / `some false` (down). -/
structure TFRow where
  tf : String
  bull : Option String
  bullPct : Option Rat
  bullDirUp : Option Bool
  bear : Option String
  bearPct : Option Rat
  bearDirUp : Option Bool
deriving DecidableEq, Repr

/-- The insufficient-data sentinel row (lines 82-92). -/
def insufficientRow (label : String) : TFRow :=
  ⟨label, none, none, none, none, none, none⟩

/-- The table row built for one `(label, sec)` entry (loop body,
lines 78-110): `bull_dir` is up when `bull_val >= 0`, `bear_dir` is down when
`bear_val <= 0`. -/
def tfRowFor (df : List FlowRow) (lw : String × Int) : TFRow :=
  match compute_bull_bear df lw.2 with
  | none => insufficientRow lw.1
  | some (bs, bv, rs, rv) =>
    { tf := lw.1, bull := some bs, bullPct := some bv,
      bullDirUp := some (if 0 ≤ bv then true else false),
      bear := some rs, bearPct := some rv,
      bearDirUp := some (if rv ≤ 0 then false else true) }

/-- Embedding of `compute_multi_tf_table` (lines 69-112). -/
def compute_multi_tf_table (df : List FlowRow) : List TFRow :=
  TF_WINDOWS.map (tfRowFor df)

/-! ## The flow feature engine (`src/features/deltas.py`)

Pandas cell values are modelled by `PVal`: finite floats by `ℚ`, `NaN` and
`±inf` by explicit constructors, strings by `String`.  A DataFrame (`PFrame`)
is a column-name list plus rows of cells keyed by column name; a column
assignment `df[c] = ...` updates every row and appends `c` to the columns
when new (pandas puts new columns last). -/

inductive PVal where
  | num (q : Rat)
  | str (s : String)
  | nan
  | inf (pos : Bool)
deriving DecidableEq, Repr

structure PFrame where
  cols : List String
  rows : List (List (String × PVal))
deriving DecidableEq, Repr

/-- Read one cell; a missing key reads as `NaN` (rows of a well-formed frame
always carry every column, so this default is never exercised on frames the
pipeline builds). -/
def getCell (r : List (String × PVal)) (c : String) : PVal :=
  (getAssoc r c).getD PVal.nan

/-- Column assignment `df[c] = rows.map g` — in place on the frame value. -/
def setColBy (f : PFrame) (c : String)
    (g : List (String × PVal) → PVal) : PFrame :=
  { cols := if c ∈ f.cols then f.cols else f.cols ++ [c],
    rows := f.rows.map (fun r => setAssoc r c (g r)) }

/-- Python `str(x)` as used on the `symbol` column.  Faithful for string
cells (the only kind the pipeline puts there); for the never-occurring other
kinds we use a printable stand-in. -/
def pvalPyStr : PVal → String
  | .str s => s
  | .num q => toString q
  | .nan => "nan"
  | .inf pos => if pos then "inf" else "-inf"

/-- Python `str.upper()` (by code point, as `.str.upper()` does on ASCII
symbols). -/
def pyUpper (s : String) : String := String.mk (s.data.map Char.toUpper)

/-- Embedding of `df["symbol"].map(mcap_map).astype("float64")` for one
symbol: a missing key maps to `NaN`, and a key present with value `None`
(as `get_mcap_map` produces for unknown symbols) also becomes `NaN` under
`astype`. -/
def mcapLookup (m : List (String × Option Rat)) (s : String) : PVal :=
  match getAssoc m s with
  | some (some q) => .num q
  | some none => .nan
  | none => .nan

/-- Float division of cells, as `df[col] / df["mcap_usd"]` computes it:
`a/0` is `±inf` (or `NaN` for `0/0`), `NaN` operands propagate.  A string
operand would make pandas raise `TypeError`; the pipeline only divides
numeric columns, and no claim exercises that case, so it is mapped to `NaN`
here. -/
def divPVal : PVal → PVal → PVal
  | .num a, .num b =>
    if b = 0 then (if a = 0 then .nan else .inf (0 < a)) else .num (a / b)
  | .num _, .inf _ => .num 0
  | .inf p, .num b => if b = 0 then .inf p else if 0 < b then .inf p else .inf (!p)
  | .inf _, .inf _ => .nan
  | _, _ => .nan

/-- One cell of `.replace([np.inf, -np.inf], np.nan)`. -/
def cleanInf : PVal → PVal
  | .inf _ => .nan
  | v => v

/-- One cell of `.fillna(0.0)`. -/
def fillZero : PVal → PVal
  | .nan => .num 0
  | v => v

/-- Embedding of `normalize_by_mcap` (lines 29-61), value level.  Guards: an
empty frame, or a frame without the `symbol` column or without `col`, is
returned unchanged (the `snapshot is None` guard has no counterpart: the
embedding has no null frames).  Object identity — that the function operates
on `snapshot.copy()` — is treated by the heap embedding
`normalize_by_mcap_heap` below. -/
def normalize_by_mcap (snapshot : PFrame) (mcap_map : List (String × Option Rat))
    (col : String) : PFrame :=
  if snapshot.rows = [] then snapshot
  else if ¬ ("symbol" ∈ snapshot.cols ∧ col ∈ snapshot.cols) then snapshot
  else
    let df := snapshot
    let df := setColBy df "symbol"
      (fun r => .str (pyUpper (pvalPyStr (getCell r "symbol"))))
    let df := setColBy df "mcap_usd"
      (fun r => mcapLookup mcap_map (pvalPyStr (getCell r "symbol")))
    let df := setColBy df (col ++ "_norm")
      (fun r => divPVal (getCell r col) (getCell r "mcap_usd"))
    let df := setColBy df (col ++ "_norm")
      (fun r => cleanInf (getCell r (col ++ "_norm")))
    let df := setColBy df (col ++ "_norm")
      (fun r => fillZero (getCell r (col ++ "_norm")))
    df

/-- The row-level composite that `normalize_by_mcap` applies to each row:
upper-case the symbol, attach the market cap, divide, replace infinities,
fill `NaN` with `0.0`. -/
def normRowFn (m : List (String × Option Rat)) (col : String)
    (r : List (String × PVal)) : List (String × PVal) :=
  let r1 := setAssoc r "symbol" (.str (pyUpper (pvalPyStr (getCell r "symbol"))))
  let r2 := setAssoc r1 "mcap_usd" (mcapLookup m (pvalPyStr (getCell r1 "symbol")))
  let r3 := setAssoc r2 (col ++ "_norm")
    (divPVal (getCell r2 col) (getCell r2 "mcap_usd"))
  let r4 := setAssoc r3 (col ++ "_norm") (cleanInf (getCell r3 (col ++ "_norm")))
  setAssoc r4 (col ++ "_norm") (fillZero (getCell r4 (col ++ "_norm")))

/-- Numeric reading of a cell, for sort keys and arithmetic on columns that
the code has already cleaned of `NaN` (after `dropna`) and that hold finite
numbers in every pipeline input; the default on other cells is immaterial to
the claims in scope. -/
def pvalNum : PVal → Rat
  | .num q => q
  | _ => 0

/-- True when a cell counts as missing for `dropna` (pandas drops `NaN`). -/
def isNACell (r : List (String × PVal)) (c : String) : Bool :=
  match getAssoc r c with
  | some PVal.nan => true
  | none => true
  | some _ => false

/-- Embedding of `out.dropna(subset=["symbol", "timestamp", "volume"])`. -/
def dropnaSTV (f : PFrame) : PFrame :=
  { cols := f.cols,
    rows := f.rows.filter (fun r =>
      !(isNACell r "symbol" || isNACell r "timestamp" || isNACell r "volume")) }

/-- Sort key order of `out.sort_values(["symbol", "timestamp"])`: symbol
first, then timestamp.  (Tie order among fully equal keys is irrelevant to
every claim in scope.) -/
def rowKeyLe (a b : List (String × PVal)) : Bool :=
  let sa := pvalPyStr (getCell a "symbol")
  let sb := pvalPyStr (getCell b "symbol")
  if sa = sb then pvalNum (getCell a "timestamp") ≤ pvalNum (getCell b "timestamp")
  else pyStrLt sa sb

def insertRowAsc (r : List (String × PVal)) :
    List (List (String × PVal)) → List (List (String × PVal))
  | [] => [r]
  | x :: xs => if rowKeyLe x r then x :: insertRowAsc r xs else r :: x :: xs

def sortSymTsRows : List (List (String × PVal)) → List (List (String × PVal))
  | [] => []
  | r :: rs => insertRowAsc r (sortSymTsRows rs)

def sortSymTs (f : PFrame) : PFrame :=
  { cols := f.cols, rows := sortSymTsRows f.rows }

/-- Embedding of `out.groupby("symbol")["volume"].pct_change()` over the
sorted rows: walk the rows carrying the previous volume per symbol; the first
row of a symbol has no prior and gets `NaN`, later rows get
`(v - prev) / prev` with float-division semantics (so a zero previous volume
gives `±inf`/`NaN`, cleaned up by the following `replace`/`fillna`). -/
def pctChangeRows : List (List (String × PVal)) → List (String × Rat) →
    List (List (String × PVal))
  | [], _ => []
  | r :: rest, lastv =>
    let s := pvalPyStr (getCell r "symbol")
    let v := pvalNum (getCell r "volume")
    let pc := match getAssoc lastv s with
      | none => PVal.nan
      | some pv => divPVal (PVal.num (v - pv)) (PVal.num pv)
    setAssoc r "vol_delta" pc :: pctChangeRows rest (setAssoc lastv s v)

/-- The column assignment `out["vol_delta"] = ...pct_change()`. -/
def setVolDelta (f : PFrame) : PFrame :=
  { cols := if "vol_delta" ∈ f.cols then f.cols else f.cols ++ ["vol_delta"],
    rows := pctChangeRows f.rows [] }

/-- `df[c].replace([np.inf, -np.inf], np.nan, inplace=True)`. -/
def cleanInfCol (f : PFrame) (c : String) : PFrame :=
  setColBy f c (fun r => cleanInf (getCell r c))

/-- `df[c].fillna(0.0, inplace=True)`. -/
def fillZeroCol (f : PFrame) (c : String) : PFrame :=
  setColBy f c (fun r => fillZero (getCell r c))

/-- Embedding of `compute_vdelta` (lines 7-26), value level. -/
def compute_vdelta (df : PFrame) : PFrame :=
  if df.rows = []
      ∨ ¬ ("symbol" ∈ df.cols ∧ "timestamp" ∈ df.cols ∧ "volume" ∈ df.cols)
  then df
  else
    let out := df
    let out := dropnaSTV out
    let out := sortSymTs out
    let out := setVolDelta out
    let out := cleanInfCol out "vol_delta"
    let out := fillZeroCol out "vol_delta"
    out

/-- The non-`NaN` numeric entries of a column, as `np.nanmean`/`np.nanstd`
consume them. -/
def nanVals (f : PFrame) (c : String) : List Rat :=
  f.rows.filterMap (fun r =>
    match getAssoc r c with
    | some (PVal.num q) => some q
    | _ => none)

/-- `np.nanmean`: `none` models the `NaN` a mean of no numbers produces. -/
def nanMean (xs : List Rat) : Option Rat :=
  if xs = [] then none else some (xs.sum / xs.length)

/-- Population variance of the non-`NaN` entries.  Python computes
`sd = np.nanstd(x) = sqrt(variance)`, an irrational number that `ℚ` cannot
carry; every claim in scope depends only on the guard `sd == 0 or isnan(sd)`,
which is equivalent to `variance == 0 or isnan(variance)` since
`sqrt v = 0 ↔ v = 0` and `sqrt` propagates `NaN` — so the variance serves as
the divisor stand-in in the (claim-irrelevant) finite branch. -/
def nanVarPop (xs : List Rat) : Option Rat :=
  if xs = [] then none
  else
    let mu := xs.sum / xs.length
    some ((xs.map (fun x => (x - mu) ^ 2)).sum / xs.length)

/-- The column assignment part of `cross_sectional_zscore` (lines 83-90):
all-`NaN` output when the deviation is zero or undefined, otherwise the
standardized values. -/
def zscoreAssign (df : PFrame) (col out_col : String) : PFrame :=
  match nanMean (nanVals df col), nanVarPop (nanVals df col) with
  | some mu, some v =>
    if v = 0 then setColBy df out_col (fun _ => PVal.nan)
    else
      setColBy df out_col (fun r =>
        match getAssoc r col with
        | some (PVal.num q) => PVal.num ((q - mu) / v)
        | _ => PVal.nan)
  | _, _ => setColBy df out_col (fun _ => PVal.nan)

/-- Embedding of `cross_sectional_zscore` (lines 64-92), value level. -/
def cross_sectional_zscore (df : PFrame) (col out_col : String) : PFrame :=
  if df.rows = [] ∨ col ∉ df.cols then df
  else zscoreAssign df col out_col

/-! ### Object identity: the heap embedding for the mutation claim

Python frames are heap objects; `snapshot.copy()` allocates a fresh one and
all writes of the three feature functions target the copy.  We model the heap
as a list of frame values addressed by index: `copy` appends, an in-place
column write `List.set`s the written object's index, and a rebinding
assignment (`out = out.dropna(...)`) allocates the method's fresh result. -/

def hget (h : List PFrame) (i : Nat) : PFrame := h.getD i ⟨[], []⟩

/-- Heap-level `compute_vdelta`: the guard returns the caller's object
itself; otherwise `out = df.copy()` allocates, `dropna`/`sort_values` rebind
`out` to fresh objects, and the three `vol_delta` writes mutate `out` in
place. -/
def compute_vdelta_heap (h : List PFrame) (df : Nat) : List PFrame × Nat :=
  let f := hget h df
  if f.rows = []
      ∨ ¬ ("symbol" ∈ f.cols ∧ "timestamp" ∈ f.cols ∧ "volume" ∈ f.cols)
  then (h, df)
  else
    let h1 := h ++ [f]
    let out1 := h.length
    let h2 := h1 ++ [dropnaSTV (hget h1 out1)]
    let out2 := h1.length
    let h3 := h2 ++ [sortSymTs (hget h2 out2)]
    let out3 := h2.length
    let h4 := h3.set out3 (setVolDelta (hget h3 out3))
    let h5 := h4.set out3 (cleanInfCol (hget h4 out3) "vol_delta")
    let h6 := h5.set out3 (fillZeroCol (hget h5 out3) "vol_delta")
    (h6, out3)

/-- Heap-level `normalize_by_mcap`: the two guards return the caller's
object; otherwise `df = snapshot.copy()` allocates and the five column
writes mutate the copy in place. -/
def normalize_by_mcap_heap (h : List PFrame) (snapshot : Nat)
    (m : List (String × Option Rat)) (col : String) : List PFrame × Nat :=
  let f := hget h snapshot
  if f.rows = [] then (h, snapshot)
  else if ¬ ("symbol" ∈ f.cols ∧ col ∈ f.cols) then (h, snapshot)
  else
    let h1 := h ++ [f]
    let df := h.length
    let h2 := h1.set df (setColBy (hget h1 df) "symbol"
      (fun r => .str (pyUpper (pvalPyStr (getCell r "symbol")))))
    let h3 := h2.set df (setColBy (hget h2 df) "mcap_usd"
      (fun r => mcapLookup m (pvalPyStr (getCell r "symbol"))))
    let h4 := h3.set df (setColBy (hget h3 df) (col ++ "_norm")
      (fun r => divPVal (getCell r col) (getCell r "mcap_usd")))
    let h5 := h4.set df (setColBy (hget h4 df) (col ++ "_norm")
      (fun r => cleanInf (getCell r (col ++ "_norm"))))
    let h6 := h5.set df (setColBy (hget h5 df) (col ++ "_norm")
      (fun r => fillZero (getCell r (col ++ "_norm"))))
    (h6, df)

/-- Heap-level `cross_sectional_zscore`: guard returns the caller's object;
otherwise `df = snapshot.copy()` allocates, the mean/std computation reads
only, and the single `df[out_col] = ...` write mutates the copy. -/
def cross_sectional_zscore_heap (h : List PFrame) (i : Nat)
    (col out_col : String) : List PFrame × Nat :=
  let f := hget h i
  if f.rows = [] ∨ col ∉ f.cols then (h, i)
  else
    let h1 := h ++ [f]
    let df := h.length
    let h2 := h1.set df (zscoreAssign (hget h1 df) col out_col)
    (h2, df)

/-! ## The directional flow-share block of `src/views/screener.py`
(lines 190-207)

The block reads columns from the snapshot-derived frame; pandas raises
`KeyError` when a column is missing, which the embedding surfaces as an
`Except.error` naming the column in access order:
`df["timestamp"]` (line 190), then — only when the window slice is nonempty —
`tf_df.set_index("symbol")` and `...["vdelta_eff"]` (line 197).
`abs_tot.sum()` (the per-symbol sums of absolute values, summed over symbols)
equals the plain sum of `|vdelta_eff|` over the window's rows, which is how
the embedding writes it; `signed_tot.get(sym, 0.0)` is the signed sum, `0`
for a symbol absent from the window. -/

def flowshareBlock (df : PFrame) (symbols : List String) (window_sec : Rat) :
    Except String (List (String × Rat)) :=
  if "timestamp" ∉ df.cols then .error "KeyError: timestamp"
  else
    let tss := df.rows.map (fun r => pvalNum (getCell r "timestamp"))
    let cut_ts := (match tss with | [] => 0 | t :: ts => ts.foldl max t)
      - window_sec
    let tf_rows := df.rows.filter
      (fun r => cut_ts ≤ pvalNum (getCell r "timestamp"))
    if tf_rows = [] then .ok (symbols.map (fun s => (s, 0)))
    else if "symbol" ∉ df.cols then .error "KeyError: symbol"
    else if "vdelta_eff" ∉ df.cols then .error "KeyError: vdelta_eff"
    else
      let abs_tot := (tf_rows.map
        (fun r => |pvalNum (getCell r "vdelta_eff")|)).sum
      let signed := fun s => (tf_rows.map (fun r =>
        if pvalPyStr (getCell r "symbol") = s
        then pvalNum (getCell r "vdelta_eff") else 0)).sum
      if abs_tot = 0 then .ok (symbols.map (fun s => (s, 0)))
      else .ok (symbols.map (fun s => (s, signed s / abs_tot)))

/-! ## Lemmas and the claims' theorems -/

theorem getAssoc_setAssoc_self {α : Type} (l : List (String × α)) (k : String)
    (v : α) : getAssoc (setAssoc l k v) k = some v := by
  induction l with
  | nil => simp [getAssoc, setAssoc]
  | cons p rest ih =>
    obtain ⟨k0, v0⟩ := p
    by_cases h : k0 = k
    · simp [getAssoc, setAssoc, h]
    · simp [getAssoc, setAssoc, h, ih]

theorem getAssoc_setAssoc_ne {α : Type} (l : List (String × α)) (k k' : String)
    (v : α) (h : k ≠ k') : getAssoc (setAssoc l k v) k' = getAssoc l k' := by
  induction l with
  | nil => simp [getAssoc, setAssoc, h]
  | cons p rest ih =>
    obtain ⟨k0, v0⟩ := p
    by_cases hp : k0 = k
    · simp [getAssoc, setAssoc, hp, h]
    · simp only [getAssoc, setAssoc, hp, if_false]
      by_cases hp' : k0 = k'
      · simp [getAssoc, hp']
      · simp [getAssoc, hp', ih]

theorem assocKeys_setAssoc {α : Type} (l : List (String × α)) (k : String)
    (v : α) (k' : String) :
    k' ∈ assocKeys (setAssoc l k v) ↔ k' = k ∨ k' ∈ assocKeys l := by
  induction l with
  | nil => simp [assocKeys, setAssoc, eq_comm]
  | cons p rest ih =>
    obtain ⟨k0, v0⟩ := p
    by_cases hp : k0 = k
    · subst hp
      simp [setAssoc, assocKeys]
    · simp only [setAssoc, if_neg hp, assocKeys, List.map_cons, List.mem_cons]
      rw [assocKeys] at ih
      rw [ih]
      tauto

theorem keys_nodup_setAssoc {α : Type} (l : List (String × α)) (k : String)
    (v : α) (h : (assocKeys l).Nodup) : (assocKeys (setAssoc l k v)).Nodup := by
  induction l with
  | nil => simp [assocKeys, setAssoc]
  | cons p rest ih =>
    obtain ⟨k0, v0⟩ := p
    simp only [assocKeys, List.map_cons, List.nodup_cons] at h
    by_cases hp : k0 = k
    · subst hp
      have hset : setAssoc ((k0, v0) :: rest) k0 v = (k0, v) :: rest := by
        simp [setAssoc]
      rw [hset]
      simp only [assocKeys, List.map_cons, List.nodup_cons]
      exact ⟨h.1, h.2⟩
    · simp only [setAssoc, if_neg hp, assocKeys, List.map_cons, List.nodup_cons]
      refine ⟨?_, ih h.2⟩
      intro hmem
      rcases (assocKeys_setAssoc rest k v k0).1 hmem with h1 | h1
      · exact hp h1
      · exact h.1 h1

theorem getAssoc_of_mem_nodup {α : Type} (l : List (String × α))
    (h : (assocKeys l).Nodup) (p : String × α) (hp : p ∈ l) :
    getAssoc l p.1 = some p.2 := by
  induction l with
  | nil => cases hp
  | cons q rest ih =>
    obtain ⟨k0, v0⟩ := q
    simp only [assocKeys, List.map_cons, List.nodup_cons] at h
    rcases List.mem_cons.1 hp with h1 | h1
    · subst h1
      simp [getAssoc]
    · have hne : k0 ≠ p.1 := by
        intro he
        exact h.1 (he ▸ List.mem_map_of_mem (·.1) h1)
      simp only [getAssoc, if_neg hne]
      exact ih h.2 h1

theorem charListLt_irrefl (l : List Char) : charListLt l l = false := by
  induction l with
  | nil => rfl
  | cons c cs ih => simp [charListLt, ih]

theorem charListLt_trans (a b c : List Char) (hab : charListLt a b = true)
    (hbc : charListLt b c = true) : charListLt a c = true := by
  induction a generalizing b c with
  | nil =>
    cases c with
    | nil =>
      cases b with
      | nil => exact hab
      | cons y ys => simp [charListLt] at hbc
    | cons z zs => simp [charListLt]
  | cons x xs ih =>
    cases b with
    | nil => simp [charListLt] at hab
    | cons y ys =>
      cases c with
      | nil => simp [charListLt] at hbc
      | cons z zs =>
        simp only [charListLt] at hab hbc ⊢
        by_cases hxy : x < y
        · by_cases hyz : y < z
          · simp [lt_trans hxy hyz]
          · simp only [if_neg hyz] at hbc
            by_cases hyz' : y = z
            · simp [hyz' ▸ hxy]
            · simp [hyz'] at hbc
        · simp only [if_neg hxy] at hab
          by_cases hxy' : x = y
          · simp only [if_pos hxy'] at hab
            by_cases hyz : y < z
            · simp [hxy' ▸ hyz]
            · simp only [if_neg hyz] at hbc
              by_cases hyz' : y = z
              · by_cases hxz : x < z
                · simp [hxz]
                · simp only [if_neg hxz, if_pos (hxy'.trans hyz')]
                  simp only [if_pos hyz'] at hbc
                  exact ih ys zs hab hbc
              · simp [hyz'] at hbc
          · simp [hxy'] at hab

theorem charListLt_total (a b : List Char) (h : a ≠ b) :
    charListLt a b = true ∨ charListLt b a = true := by
  induction a generalizing b with
  | nil =>
    cases b with
    | nil => exact absurd rfl h
    | cons y ys => left; simp [charListLt]
  | cons x xs ih =>
    cases b with
    | nil => right; simp [charListLt]
    | cons y ys =>
      by_cases hxy : x < y
      · left; simp [charListLt, hxy]
      · by_cases hyx : y < x
        · right; simp [charListLt, hyx]
        · have hx : x = y := le_antisymm (le_of_not_lt hyx) (le_of_not_lt hxy)
          subst hx
          have hne : xs ≠ ys := by intro he; exact h (by rw [he])
          rcases ih ys hne with h1 | h1
          · left; simp [charListLt, h1]
          · right; simp [charListLt, h1]

theorem runAppends_eq_runFrom (w : Int) (evs : List AppendEv) :
    runAppends w evs = runFrom (initCollector w) evs := rfl

theorem window_seconds_appendEvent (c : Collector) (sym : String)
    (ts : Int) (p sq : Rat) :
    (appendEvent c sym ts p sq).window_seconds = c.window_seconds := rfl

theorem window_seconds_runFrom (evs : List AppendEv) (c : Collector) :
    (runFrom c evs).window_seconds = c.window_seconds := by
  induction evs generalizing c with
  | nil => rfl
  | cons e rest ih => exact (ih (appendEvent c e.symbol e.ts e.price e.sq))

/-- Pruning at a cutoff no larger than the summation cutoff does not change the
summed `signed_qty`: every dropped entry fails the summation filter anyway. -/
theorem loopVq_dropWhile (cp c : Int) (h : cp ≤ c) (dq : List Trade) :
    loopVq c (dq.dropWhile (fun e => e.ts < cp)) = loopVq c dq := by
  induction dq with
  | nil => rfl
  | cons e rest ih =>
    by_cases he : e.ts < cp
    · have hnc : ¬ c ≤ e.ts := by omega
      simp [List.dropWhile, he, loopVq, hnc, ih]
    · simp [List.dropWhile, he]

theorem loopVq_append_single (c : Int) (dq : List Trade) (e : Trade) :
    loopVq c (dq ++ [e]) = loopVq c dq + (if c ≤ e.ts then e.sq else 0) := by
  induction dq with
  | nil => simp [loopVq]
  | cons x rest ih => simp [loopVq, ih]; ring

/-- Core invariant: after any sequence of appends, the filtered deque sum for a
symbol equals the starting deque's filtered sum plus the signed window sum of
the appended events — provided the reference time is at least every appended
event's time (so that no append-time pruning could have evicted an event that
the window at `ref` still covers). -/
theorem loopVq_deque_runFrom (evs : List AppendEv) (c : Collector)
    (sym : String) (ref : Int) (href : ∀ e ∈ evs, e.ts ≤ ref) :
    loopVq (ref - c.window_seconds * 1000)
        ((getAssoc (runFrom c evs).trades sym).getD [])
      = loopVq (ref - c.window_seconds * 1000)
          ((getAssoc c.trades sym).getD [])
        + windowVq evs sym (ref - c.window_seconds * 1000) := by
  induction evs generalizing c with
  | nil => simp [runFrom, windowVq]
  | cons e rest ih =>
    have hstep : runFrom c (e :: rest)
        = runFrom (appendEvent c e.symbol e.ts e.price e.sq) rest := rfl
    have hw : (appendEvent c e.symbol e.ts e.price e.sq).window_seconds
        = c.window_seconds := rfl
    have hrest := ih (appendEvent c e.symbol e.ts e.price e.sq)
      (fun x hx => href x (List.mem_cons_of_mem e hx))
    rw [hw] at hrest
    rw [hstep, hrest]
    have hwv : windowVq (e :: rest) sym (ref - c.window_seconds * 1000)
        = (if e.symbol = sym ∧ ref - c.window_seconds * 1000 ≤ e.ts then e.sq
            else 0)
          + windowVq rest sym (ref - c.window_seconds * 1000) := by
      simp [windowVq]
    rw [hwv]
    by_cases hsym : e.symbol = sym
    · subst hsym
      have hget : getAssoc (appendEvent c e.symbol e.ts e.price e.sq).trades
          e.symbol
          = some (prune_locked c.window_seconds e.ts
              (((getAssoc c.trades e.symbol).getD [])
                ++ [⟨e.ts, e.sq, e.sq * e.price⟩])) := by
        simp only [appendEvent]
        exact getAssoc_setAssoc_self _ _ _
      rw [hget]
      have hcp : e.ts - c.window_seconds * 1000
          ≤ ref - c.window_seconds * 1000 := by
        have := href e (List.mem_cons_self e rest)
        omega
      simp only [Option.getD_some, prune_locked]
      rw [loopVq_dropWhile (e.ts - c.window_seconds * 1000)
        (ref - c.window_seconds * 1000) hcp]
      rw [loopVq_append_single]
      simp only [true_and]
      ring
    · have hget : getAssoc (appendEvent c e.symbol e.ts e.price e.sq).trades sym
          = getAssoc c.trades sym := by
        simp only [appendEvent]
        exact getAssoc_setAssoc_ne _ _ _ _ hsym
      rw [hget]
      simp only [hsym, false_and, if_false]
      ring

/-- Keys of the trades dict are free of duplicates in every reachable state. -/
theorem keys_nodup_runFrom (evs : List AppendEv) (c : Collector)
    (h : (assocKeys c.trades).Nodup) :
    (assocKeys (runFrom c evs).trades).Nodup := by
  induction evs generalizing c with
  | nil => exact h
  | cons e rest ih =>
    exact ih (appendEvent c e.symbol e.ts e.price e.sq)
      (keys_nodup_setAssoc _ _ _ h)

theorem keys_runFrom_mono (evs : List AppendEv) (c : Collector) (sym : String)
    (h : sym ∈ assocKeys c.trades) :
    sym ∈ assocKeys (runFrom c evs).trades := by
  induction evs generalizing c with
  | nil => exact h
  | cons e rest ih =>
    refine ih (appendEvent c e.symbol e.ts e.price e.sq) ?_
    simp only [appendEvent]
    exact (assocKeys_setAssoc _ _ _ _).2 (Or.inr h)

/-- The symbols of the trades dict after a run are exactly the starting keys
together with the appended symbols. -/
theorem keys_runFrom_iff (evs : List AppendEv) (c : Collector) (sym : String) :
    sym ∈ assocKeys (runFrom c evs).trades
      ↔ sym ∈ assocKeys c.trades ∨ sym ∈ evs.map (·.symbol) := by
  induction evs generalizing c with
  | nil => simp [runFrom]
  | cons e rest ih =>
    have hstep : runFrom c (e :: rest)
        = runFrom (appendEvent c e.symbol e.ts e.price e.sq) rest := rfl
    rw [hstep, ih]
    simp only [appendEvent]
    rw [assocKeys_setAssoc]
    simp only [List.map_cons, List.mem_cons]
    tauto

theorem insertRowDesc_perm (r : SnapRow) (l : List SnapRow) :
    (insertRowDesc r l).Perm (r :: l) := by
  induction l with
  | nil => exact List.Perm.refl _
  | cons x xs ih =>
    by_cases h : |r.vdelta_notional| < |x.vdelta_notional|
    · simp only [insertRowDesc, if_pos h]
      exact (ih.cons x).trans (List.Perm.swap r x xs)
    · simp only [insertRowDesc, if_neg h]
      exact List.Perm.refl _

theorem sortRowsDesc_perm (l : List SnapRow) : (sortRowsDesc l).Perm l := by
  induction l with
  | nil => exact List.Perm.refl _
  | cons r rs ih =>
    exact (insertRowDesc_perm r (sortRowsDesc rs)).trans (ih.cons r)

theorem mem_snapshot_iff (c : Collector) (now : Option Int) (wc : Int)
    (r : SnapRow) :
    r ∈ snapshot c now wc
      ↔ r ∈ c.trades.map (fun p => snapRowFor c (now.getD wc) p.1 p.2) := by
  simp only [snapshot]
  by_cases h : c.trades.map
      (fun p => snapRowFor c (now.getD wc) p.1 p.2) = ([] : List SnapRow)
  · simp [h]
  · simp only [if_neg h]
    exact (sortRowsDesc_perm _).mem_iff

theorem snapRowFor_symbol (c : Collector) (now_ms : Int) (sym : String)
    (dq : List Trade) : (snapRowFor c now_ms sym dq).symbol = sym := rfl

/-- A snapshot has a row whose symbol is `sym` exactly when some event with
symbol `sym` has ever been appended — even when all of that symbol's events
have expired out of the window (the dict entry survives pruning). -/
theorem exists_snapshot_row_iff (w : Int) (evs : List AppendEv)
    (now : Option Int) (wc : Int) (sym : String) :
    (∃ r ∈ snapshot (runAppends w evs) now wc, r.symbol = sym)
      ↔ sym ∈ evs.map (·.symbol) := by
  constructor
  · rintro ⟨r, hr, hsym⟩
    rw [mem_snapshot_iff] at hr
    obtain ⟨p, hp, hpr⟩ := List.mem_map.1 hr
    have hk : p.1 ∈ assocKeys (runAppends w evs).trades :=
      List.mem_map_of_mem (·.1) hp
    rw [runAppends_eq_runFrom, keys_runFrom_iff] at hk
    have hsymp : r.symbol = p.1 := by rw [← hpr]; rfl
    rw [hsymp] at hsym
    rcases hk with hk | hk
    · simp [initCollector, assocKeys] at hk
    · rw [← hsym]; exact hk
  · intro hsym
    have hk : sym ∈ assocKeys (runFrom (initCollector w) evs).trades :=
      (keys_runFrom_iff evs (initCollector w) sym).2 (Or.inr hsym)
    obtain ⟨p, hp, h1⟩ := List.mem_map.1 hk
    refine ⟨snapRowFor (runAppends w evs) (now.getD wc) p.1 p.2, ?_, h1⟩
    rw [mem_snapshot_iff]
    exact List.mem_map_of_mem (fun q => snapRowFor (runAppends w evs)
      (now.getD wc) q.1 q.2) hp

/-- C2, amended.  For every sequence of appended events whose event times do
not exceed the snapshot's reference time, every snapshot row's `vdelta_qty`
equals the signed sum of quantities over exactly the appended events of that
symbol whose `event_time` is at least `reference - window_seconds*1000`, with
the lower bound inclusive; and every appended symbol has such a row.  The
hypothesis `href` is forced by the counterexample
`snapshot_vq_counterexample`: with a reference time smaller than a past
event's time, events evicted by append-time pruning would be required back in
the window, but they are gone. -/
theorem snapshot_vq_eq_signed_window_sum (w : Int) (evs : List AppendEv)
    (ref wallclock : Int) (href : ∀ e ∈ evs, e.ts ≤ ref) :
    (∀ r ∈ snapshot (runAppends w evs) (some ref) wallclock,
        r.vdelta_qty = windowVq evs r.symbol (ref - w * 1000))
    ∧ ∀ sym ∈ evs.map (·.symbol),
        ∃ r ∈ snapshot (runAppends w evs) (some ref) wallclock,
          r.symbol = sym := by
  constructor
  · intro r hr
    rw [mem_snapshot_iff] at hr
    obtain ⟨p, hp, hpr⟩ := List.mem_map.1 hr
    have hnodup : (assocKeys (runAppends w evs).trades).Nodup := by
      rw [runAppends_eq_runFrom]
      exact keys_nodup_runFrom evs (initCollector w) (by simp [initCollector, assocKeys])
    have hdq : getAssoc (runAppends w evs).trades p.1 = some p.2 :=
      getAssoc_of_mem_nodup _ hnodup p hp
    have hw : (runAppends w evs).window_seconds = w := by
      rw [runAppends_eq_runFrom]
      exact window_seconds_runFrom evs (initCollector w)
    have hsymp : r.symbol = p.1 := by rw [← hpr]; rfl
    have hvq : r.vdelta_qty
        = loopVq ((some ref).getD wallclock - (runAppends w evs).window_seconds * 1000)
            (prune_locked (runAppends w evs).window_seconds
              ((some ref).getD wallclock) p.2) := by
      rw [← hpr]; rfl
    rw [hsymp, hvq]
    simp only [Option.getD_some, hw, prune_locked]
    rw [loopVq_dropWhile (ref - w * 1000) (ref - w * 1000) (le_refl _)]
    have hmain := loopVq_deque_runFrom evs (initCollector w) p.1 ref href
    rw [← runAppends_eq_runFrom, hdq] at hmain
    simp only [Option.getD_some, initCollector, getAssoc, Option.getD_none,
      loopVq, zero_add] at hmain
    exact hmain
  · intro sym hsym
    exact (exists_snapshot_row_iff w evs (some ref) wallclock sym).2 hsym

/-- Witness for C2's amended theorem at the spec's own scenario restricted to
BTC: events `(t=0, +2)` and `(t=1000, -1)`, `window_seconds = 300`, reference
time `1000`; both events are retained and `vdelta_qty = 1`. -/
theorem snapshot_vq_witness :
    (⟨"BTC", 1, 1, some 1, some 1000⟩ : SnapRow).vdelta_qty
      = windowVq [⟨"BTC", 0, 1, 2⟩, ⟨"BTC", 1000, 1, -1⟩] "BTC"
          (1000 - 300 * 1000) :=
  (snapshot_vq_eq_signed_window_sum 300
      [⟨"BTC", 0, 1, 2⟩, ⟨"BTC", 1000, 1, -1⟩] 1000 0 (by decide)).1
    ⟨"BTC", 1, 1, some 1, some 1000⟩ (by
      norm_num [snapshot, runAppends, runFrom, appendEvent, initCollector,
        getAssoc, setAssoc, prune_locked, snapRowFor, loopVq, loopVn,
        loopLastTs, sortRowsDesc, insertRowDesc, List.dropWhile])

/-- Counterexample to C2 as stated: with `window_seconds = 300`, after
appending BTC events at `t=0` (qty `+2`) and `t=400000` (qty `+5`), the
append-time pruning has evicted the `t=0` event; a snapshot at reference time
`100000` reports `vdelta_qty = 5`, while the claim's sum over all appended
events with `event_time ≥ 100000 - 300*1000` is `7`. -/
theorem snapshot_vq_counterexample :
    ((snapshot (runAppends 300 [⟨"BTC", 0, 1, 2⟩, ⟨"BTC", 400000, 1, 5⟩])
          (some 100000) 0).map (fun r => (r.symbol, r.vdelta_qty)))
      = [("BTC", 5)]
    ∧ windowVq [⟨"BTC", 0, 1, 2⟩, ⟨"BTC", 400000, 1, 5⟩] "BTC"
          (100000 - 300 * 1000) = 7
    ∧ (5 : Rat) ≠ 7 := by
  refine ⟨?_, ?_, by norm_num⟩
  · norm_num [snapshot, runAppends, runFrom, appendEvent, initCollector,
      getAssoc, setAssoc, prune_locked, snapRowFor, loopVq, loopVn,
      loopLastTs, sortRowsDesc, insertRowDesc, List.dropWhile]
  · norm_num [windowVq]

/-- C5, amended.  `snapshot` is a total function (the embedding returns a
value for every state, never an error); with zero events ever appended it
returns the empty result set; and it returns one row per symbol that has ever
had an event appended — including symbols whose events have all expired out of
the window, whose rows simply carry zero sums (see
`snapshot_row_set_counterexample`). -/
theorem snapshot_row_set (w : Int) (now : Option Int) (wc : Int)
    (evs : List AppendEv) :
    snapshot (runAppends w []) now wc = []
    ∧ ∀ sym, (∃ r ∈ snapshot (runAppends w evs) now wc, r.symbol = sym)
        ↔ sym ∈ evs.map (·.symbol) := by
  constructor
  · rfl
  · intro sym
    exact exists_snapshot_row_iff w evs now wc sym

/-- Counterexample to C5 as stated: one BTC event at `t=0`
(`window_seconds = 300`), snapshot at reference time `10^9`.  Every BTC event
is strictly older than the cutoff, yet BTC still contributes a row (with zero
sums and null `last_ts`) — the claim says such a symbol contributes no row. -/
theorem snapshot_row_set_counterexample :
    snapshot (runAppends 300 [⟨"BTC", 0, 1, 1⟩]) (some 1000000000) 0
      = [⟨"BTC", 0, 0, some 1, none⟩]
    ∧ ∀ e ∈ [(⟨"BTC", 0, 1, 1⟩ : AppendEv)],
        e.ts < 1000000000 - 300 * 1000 := by
  refine ⟨?_, by decide⟩
  norm_num [snapshot, runAppends, runFrom, appendEvent, initCollector,
    getAssoc, setAssoc, prune_locked, snapRowFor, loopVq, loopVn,
    loopLastTs, sortRowsDesc, insertRowDesc, List.dropWhile]

/-- C3, amended.  When `snapshot()` is called without an explicit reference
time, the reference used for pruning and summing is always the wall-clock time
at the call (`datetime.now(timezone.utc)`, lines 139-141), whether or not
events have been observed; the latest observed event time is never consulted.
Formally: the default-argument snapshot coincides with an explicit snapshot at
the wall-clock time, for every collector state. -/
theorem snapshot_default_is_wallclock (c : Collector) (wc : Int) :
    snapshot c none wc = snapshot c (some wc) wc := rfl

/-- Counterexample to C3 as stated: one observed BTC event at `t=400000`
(`window_seconds = 300`), wall clock `1000000`.  The claim says the default
reference is the latest observed event time (`400000`), under which the event
is inside the window (`vdelta_qty = 5`); the code uses the wall clock, under
which it has expired (`vdelta_qty = 0`).  The two snapshots differ, so the
default reference is not the latest event time. -/
theorem snapshot_default_counterexample :
    snapshot (runAppends 300 [⟨"BTC", 400000, 1, 5⟩]) none 1000000
      = [⟨"BTC", 0, 0, some 1, none⟩]
    ∧ snapshot (runAppends 300 [⟨"BTC", 400000, 1, 5⟩]) (some 400000) 1000000
      = [⟨"BTC", 5, 5, some 1, some 400000⟩]
    ∧ ([⟨"BTC", 0, 0, some 1, none⟩] : List SnapRow)
        ≠ [⟨"BTC", 5, 5, some 1, some 400000⟩] := by
  refine ⟨?_, ?_, by norm_num⟩ <;>
    norm_num [snapshot, runAppends, runFrom, appendEvent, initCollector,
      getAssoc, setAssoc, prune_locked, snapRowFor, loopVq, loopVn,
      loopLastTs, sortRowsDesc, insertRowDesc, List.dropWhile]

theorem insertRowDesc_sorted (r : SnapRow) (l : List SnapRow)
    (h : l.Pairwise
      (fun a b => |b.vdelta_notional| ≤ |a.vdelta_notional|)) :
    (insertRowDesc r l).Pairwise
      (fun a b => |b.vdelta_notional| ≤ |a.vdelta_notional|) := by
  induction l with
  | nil => simp [insertRowDesc]
  | cons x xs ih =>
    rw [List.pairwise_cons] at h
    by_cases hlt : |r.vdelta_notional| < |x.vdelta_notional|
    · simp only [insertRowDesc, if_pos hlt]
      rw [List.pairwise_cons]
      refine ⟨?_, ih h.2⟩
      intro y hy
      have hy' : y ∈ r :: xs := (insertRowDesc_perm r xs).mem_iff.1 hy
      rcases List.mem_cons.1 hy' with hy' | hy'
      · subst hy'; exact le_of_lt hlt
      · exact h.1 y hy'
    · simp only [insertRowDesc, if_neg hlt]
      rw [List.pairwise_cons]
      refine ⟨?_, List.pairwise_cons.2 h⟩
      intro y hy
      have hxr : |x.vdelta_notional| ≤ |r.vdelta_notional| := le_of_not_lt hlt
      rcases List.mem_cons.1 hy with hy | hy
      · subst hy; exact hxr
      · exact le_trans (h.1 y hy) hxr

theorem sortRowsDesc_sorted (l : List SnapRow) :
    (sortRowsDesc l).Pairwise
      (fun a b => |b.vdelta_notional| ≤ |a.vdelta_notional|) := by
  induction l with
  | nil => simp [sortRowsDesc]
  | cons r rs ih => exact insertRowDesc_sorted r (sortRowsDesc rs) ih

/-- C4, amended.  The rows returned by `snapshot()` are a permutation of the
per-symbol rows (built in symbol first-appearance order) sorted by
non-increasing `|vdelta_notional|`.  Rows with equal `|vdelta_notional|` keep
their stable first-appearance order — they are *not* re-ordered to symbol
lexical order (see `snapshot_order_counterexample`) — and `last_price` plays
no role in the ordering: the `na_position="last"` flag applies to the sort key
`|vdelta_notional|`, which is always a finite number, and every reachable row
carries a `last_price`. -/
theorem snapshot_rows_sorted (c : Collector) (now : Option Int) (wc : Int) :
    (snapshot c now wc).Pairwise
        (fun a b => |b.vdelta_notional| ≤ |a.vdelta_notional|)
    ∧ (snapshot c now wc).Perm
        (c.trades.map (fun p => snapRowFor c (now.getD wc) p.1 p.2)) := by
  constructor
  · simp only [snapshot]
    by_cases h : c.trades.map
        (fun p => snapRowFor c (now.getD wc) p.1 p.2) = ([] : List SnapRow)
    · simp [h]
    · simp only [if_neg h]
      exact sortRowsDesc_sorted _
  · simp only [snapshot]
    by_cases h : c.trades.map
        (fun p => snapRowFor c (now.getD wc) p.1 p.2) = ([] : List SnapRow)
    · simp [h]
    · simp only [if_neg h]
      exact sortRowsDesc_perm _

/-- Counterexample to C4 as stated: append one ETH trade then one BTC trade,
both with `|vdelta_notional| = 2` (a tie).  The snapshot reports ETH before
BTC — first-appearance order — although BTC comes first lexically, so ties are
not broken by symbol lexical order. -/
theorem snapshot_order_counterexample :
    ((snapshot (runAppends 300 [⟨"ETH", 0, 2, 1⟩, ⟨"BTC", 0, 1, 2⟩])
          (some 0) 0).map (·.symbol)) = ["ETH", "BTC"]
    ∧ ((snapshot (runAppends 300 [⟨"ETH", 0, 2, 1⟩, ⟨"BTC", 0, 1, 2⟩])
          (some 0) 0).map (fun r => |r.vdelta_notional|)) = [2, 2]
    ∧ pyStrLt "BTC" "ETH" = true := by
  refine ⟨?_, ?_, by decide⟩ <;>
  · norm_num [snapshot, runAppends, runFrom, appendEvent, initCollector,
      getAssoc, setAssoc, prune_locked, snapRowFor, loopVq, loopVn,
      loopLastTs, sortRowsDesc, insertRowDesc, List.dropWhile]
    decide

/-- C8, amended.  For every raw feed message the decoder either produces a
flow event — which is appended — or the message is discarded *silently*: the
collector state is left entirely unchanged (no discard counter exists
anywhere in the state, so nothing is counted), and no exception propagates
past the decoder boundary (`on_message` is a total function: every fallible
parsing step is caught by the surrounding `try/except`). -/
theorem on_message_decodes_or_discards (c : Collector) (msg : RawMsg) :
    (decodeEvent msg = none ∧ on_message c msg = c)
    ∨ ∃ sym ts price sq, decodeEvent msg = some (sym, ts, price, sq)
        ∧ on_message c msg = appendEvent c sym ts price sq := by
  cases h : decodeEvent msg with
  | none => exact Or.inl ⟨rfl, by simp [on_message, h]⟩
  | some v =>
    obtain ⟨sym, ts, price, sq⟩ := v
    exact Or.inr ⟨sym, ts, price, sq, rfl, by simp [on_message, h]⟩

/-- Counterexample to C8 as stated: a malformed frame (valid JSON, but the
price field `"p"` is missing) against a collector that already holds one BTC
trade.  The message is discarded, and the state after `on_message` is
*identical* to the state before — no counter was incremented, nothing records
the discard — so malformed messages are discarded but not counted. -/
theorem on_message_counterexample :
    decodeEvent ⟨true, some 123, none, none, some 1, some false,
        "btcusdt@trade"⟩ = none
    ∧ on_message (runAppends 300 [⟨"BTC", 5, 1, 1⟩])
          ⟨true, some 123, none, none, some 1, some false, "btcusdt@trade"⟩
        = runAppends 300 [⟨"BTC", 5, 1, 1⟩] := ⟨rfl, rfl⟩

/-! ### Lemmas about the dominance engine -/

theorem pyStrLt_irrefl (a : String) : pyStrLt a a = false :=
  charListLt_irrefl a.data

theorem pyStrLt_trans (a b c : String) (hab : pyStrLt a b = true)
    (hbc : pyStrLt b c = true) : pyStrLt a c = true :=
  charListLt_trans a.data b.data c.data hab hbc

theorem pyStrLt_asymm (a b : String) (hab : pyStrLt a b = true)
    (hba : pyStrLt b a = true) : False := by
  have h := pyStrLt_trans a b a hab hba
  rw [pyStrLt_irrefl] at h
  exact Bool.false_ne_true h

theorem pyStrLt_total (a b : String) (h : a ≠ b) :
    pyStrLt a b = true ∨ pyStrLt b a = true := by
  refine charListLt_total a.data b.data ?_
  intro hd
  apply h
  obtain ⟨la⟩ := a
  obtain ⟨lb⟩ := b
  exact congrArg String.mk (by simpa using hd)

theorem pyStrLe_of_lt (a b : String) (h : pyStrLt a b = true) :
    pyStrLe a b = true := by simp [pyStrLe, h]

theorem pyStrLe_refl (a : String) : pyStrLe a a = true := by simp [pyStrLe]

theorem eq_of_pyStrLe_le (a b : String) (hab : pyStrLe a b = true)
    (hba : pyStrLe b a = true) : a = b := by
  simp only [pyStrLe, Bool.or_eq_true, decide_eq_true_eq] at hab hba
  rcases hab with hab | hab
  · rcases hba with hba | hba
    · exact (pyStrLt_asymm a b hab hba).elim
    · exact hba.symm
  · exact hab

theorem mem_insertSortedSym (s : String) (l : List String) (y : String) :
    y ∈ insertSortedSym s l ↔ y = s ∨ y ∈ l := by
  induction l with
  | nil => simp [insertSortedSym]
  | cons x xs ih =>
    by_cases h1 : pyStrLt s x = true
    · simp [insertSortedSym, h1]
    · by_cases h2 : s = x
      · subst h2
        simp only [insertSortedSym, Bool.not_eq_true] at h1 ⊢
        simp [h1]
      · simp only [insertSortedSym, Bool.not_eq_true] at h1 ⊢
        simp [h1, h2, List.mem_cons, ih]
        tauto

theorem insertSortedSym_ne_nil (s : String) (l : List String) :
    insertSortedSym s l ≠ [] := by
  cases l with
  | nil => simp [insertSortedSym]
  | cons x xs =>
    simp only [insertSortedSym]
    split
    · simp
    · split <;> simp

theorem insertSortedSym_sorted (s : String) (l : List String)
    (h : l.Pairwise (fun a b => pyStrLt a b = true)) :
    (insertSortedSym s l).Pairwise (fun a b => pyStrLt a b = true) := by
  induction l with
  | nil => simp [insertSortedSym]
  | cons x xs ih =>
    rw [List.pairwise_cons] at h
    by_cases h1 : pyStrLt s x = true
    · simp only [insertSortedSym, if_pos h1]
      rw [List.pairwise_cons]
      refine ⟨?_, List.pairwise_cons.2 h⟩
      intro y hy
      rcases List.mem_cons.1 hy with hy | hy
      · subst hy; exact h1
      · exact pyStrLt_trans s x y h1 (h.1 y hy)
    · simp only [insertSortedSym, if_neg h1]
      by_cases h2 : s = x
      · simp only [if_pos h2]
        exact List.pairwise_cons.2 h
      · simp only [if_neg h2]
        rw [List.pairwise_cons]
        refine ⟨?_, ih h.2⟩
        intro y hy
        rcases (mem_insertSortedSym s xs y).1 hy with hy | hy
        · rw [hy]
          rcases pyStrLt_total s x h2 with h3 | h3
          · exact absurd h3 h1
          · exact h3
        · exact h.1 y hy

theorem sortedSyms_cons (r : FlowRow) (rs : List FlowRow) :
    sortedSyms (r :: rs) = insertSortedSym r.symbol (sortedSyms rs) := rfl

theorem sortedSyms_sorted (rows : List FlowRow) :
    (sortedSyms rows).Pairwise (fun a b => pyStrLt a b = true) := by
  induction rows with
  | nil => simp [sortedSyms]
  | cons r rs ih =>
    rw [sortedSyms_cons]
    exact insertSortedSym_sorted r.symbol (sortedSyms rs) ih

theorem mem_sortedSyms (rows : List FlowRow) (y : String) :
    y ∈ sortedSyms rows ↔ y ∈ rows.map (·.symbol) := by
  induction rows with
  | nil => simp [sortedSyms]
  | cons r rs ih =>
    rw [sortedSyms_cons, mem_insertSortedSym]
    simp [ih]

theorem sortedSyms_ne_nil (rows : List FlowRow) (h : rows ≠ []) :
    sortedSyms rows ≠ [] := by
  cases rows with
  | nil => exact absurd rfl h
  | cons r rs => rw [sortedSyms_cons]; exact insertSortedSym_ne_nil _ _

theorem foldlMax_spec (l : List Rat) (b : Rat) :
    (l.foldl max b = b ∨ l.foldl max b ∈ l)
    ∧ b ≤ l.foldl max b ∧ ∀ x ∈ l, x ≤ l.foldl max b := by
  induction l generalizing b with
  | nil => simp
  | cons y ys ih =>
    simp only [List.foldl_cons]
    obtain ⟨hmem, hb, hub⟩ := ih (max b y)
    refine ⟨?_, le_trans (le_max_left b y) hb, ?_⟩
    · rcases hmem with h | h
      · rcases max_choice b y with hc | hc
        · exact Or.inl (h.trans hc)
        · exact Or.inr (by rw [h, hc]; exact List.mem_cons_self y ys)
      · exact Or.inr (List.mem_cons_of_mem y h)
    · intro x hx
      rcases List.mem_cons.1 hx with hx | hx
      · subst hx; exact le_trans (le_max_right b x) hb
      · exact hub x hx

theorem foldlMin_spec (l : List Rat) (b : Rat) :
    (l.foldl min b = b ∨ l.foldl min b ∈ l)
    ∧ l.foldl min b ≤ b ∧ ∀ x ∈ l, l.foldl min b ≤ x := by
  induction l generalizing b with
  | nil => simp
  | cons y ys ih =>
    simp only [List.foldl_cons]
    obtain ⟨hmem, hb, hub⟩ := ih (min b y)
    refine ⟨?_, le_trans hb (min_le_left b y), ?_⟩
    · rcases hmem with h | h
      · rcases min_choice b y with hc | hc
        · exact Or.inl (h.trans hc)
        · exact Or.inr (by rw [h, hc]; exact List.mem_cons_self y ys)
      · exact Or.inr (List.mem_cons_of_mem y h)
    · intro x hx
      rcases List.mem_cons.1 hx with hx | hx
      · subst hx; exact le_trans hb (min_le_right b x)
      · exact hub x hx

/-- Specification of the `idxmax` fold over a series whose (group) keys are
strictly sorted: the result is a member, its value is the maximum, and among
entries tying the maximum its key is the lexically smallest (it is the first
such entry, and the keys increase left to right). -/
theorem idxmaxFold_spec (l : List (String × Rat)) (b : String × Rat)
    (hs : (b :: l).Pairwise (fun a c => pyStrLt a.1 c.1 = true)) :
    idxmaxFold b l ∈ b :: l
    ∧ (∀ p ∈ b :: l, p.2 ≤ (idxmaxFold b l).2)
    ∧ (∀ p ∈ b :: l, p.2 = (idxmaxFold b l).2 →
        pyStrLe (idxmaxFold b l).1 p.1 = true) := by
  induction l generalizing b with
  | nil =>
    refine ⟨List.mem_singleton.2 rfl, ?_, ?_⟩
    · intro p hp
      rw [List.mem_singleton.1 hp]
      exact le_refl _
    · intro p hp _
      rw [List.mem_singleton.1 hp]
      exact pyStrLe_refl _
  | cons q l' ih =>
    have hfold : idxmaxFold b (q :: l')
        = idxmaxFold (if b.2 < q.2 then q else b) l' := rfl
    by_cases hlt : b.2 < q.2
    · rw [hfold, if_pos hlt]
      have hs' : (q :: l').Pairwise (fun a c => pyStrLt a.1 c.1 = true) :=
        (List.pairwise_cons.1 hs).2
      obtain ⟨hmem, hub, htie⟩ := ih q hs'
      refine ⟨List.mem_cons_of_mem b hmem, ?_, ?_⟩
      · intro p hp
        rcases List.mem_cons.1 hp with hp | hp
        · subst hp
          exact le_trans (le_of_lt hlt) (hub q (List.mem_cons_self q l'))
        · exact hub p hp
      · intro p hp htiep
        rcases List.mem_cons.1 hp with hp | hp
        · subst hp
          have hq : q.2 ≤ (idxmaxFold q l').2 := hub q (List.mem_cons_self q l')
          exact absurd htiep (ne_of_lt (lt_of_lt_of_le hlt hq))
        · exact htie p hp htiep
    · rw [hfold, if_neg hlt]
      have hq : q.2 ≤ b.2 := le_of_not_lt hlt
      have hsub : (b :: l').Pairwise (fun a c => pyStrLt a.1 c.1 = true) := by
        refine List.Pairwise.sublist ?_ hs
        exact List.Sublist.cons₂ b (List.sublist_cons_self q l')
      obtain ⟨hmem, hub, htie⟩ := ih b hsub
      have hb2 : b.2 ≤ (idxmaxFold b l').2 := hub b (List.mem_cons_self b l')
      refine ⟨?_, ?_, ?_⟩
      · rcases List.mem_cons.1 hmem with h | h
        · rw [h]; exact List.mem_cons_self b (q :: l')
        · exact List.mem_cons_of_mem b (List.mem_cons_of_mem q h)
      · intro p hp
        rcases List.mem_cons.1 hp with hp | hp
        · subst hp; exact hb2
        · rcases List.mem_cons.1 hp with hp | hp
          · subst hp; exact le_trans hq hb2
          · exact hub p (List.mem_cons_of_mem b hp)
      · intro p hp htiep
        rcases List.mem_cons.1 hp with hp | hp
        · rw [hp] at htiep ⊢
          exact htie b (List.mem_cons_self b l') htiep
        · rcases List.mem_cons.1 hp with hp | hp
          · subst hp
            have hbtie : b.2 = (idxmaxFold b l').2 :=
              le_antisymm hb2 (htiep ▸ hq)
            have hbest : idxmaxFold b l' = b := by
              rcases List.mem_cons.1 hmem with h | h
              · exact h
              · exfalso
                have hlt1 : pyStrLt b.1 (idxmaxFold b l').1 = true :=
                  (List.pairwise_cons.1 hsub).1 _ h
                have hle1 : pyStrLe (idxmaxFold b l').1 b.1 = true :=
                  htie b (List.mem_cons_self b l') hbtie
                have := eq_of_pyStrLe_le _ _ hle1 (pyStrLe_of_lt _ _ hlt1)
                rw [this] at hlt1
                rw [pyStrLt_irrefl] at hlt1
                exact Bool.false_ne_true hlt1
            rw [hbest]
            exact pyStrLe_of_lt _ _ ((List.pairwise_cons.1 hs).1 p
              (List.mem_cons_self p l'))
          · exact htie p (List.mem_cons_of_mem b hp) htiep

/-- Specification of the `idxmin` fold, mirror image of `idxmaxFold_spec`. -/
theorem idxminFold_spec (l : List (String × Rat)) (b : String × Rat)
    (hs : (b :: l).Pairwise (fun a c => pyStrLt a.1 c.1 = true)) :
    idxminFold b l ∈ b :: l
    ∧ (∀ p ∈ b :: l, (idxminFold b l).2 ≤ p.2)
    ∧ (∀ p ∈ b :: l, p.2 = (idxminFold b l).2 →
        pyStrLe (idxminFold b l).1 p.1 = true) := by
  induction l generalizing b with
  | nil =>
    refine ⟨List.mem_singleton.2 rfl, ?_, ?_⟩
    · intro p hp
      rw [List.mem_singleton.1 hp]
      exact le_refl _
    · intro p hp _
      rw [List.mem_singleton.1 hp]
      exact pyStrLe_refl _
  | cons q l' ih =>
    have hfold : idxminFold b (q :: l')
        = idxminFold (if q.2 < b.2 then q else b) l' := rfl
    by_cases hlt : q.2 < b.2
    · rw [hfold, if_pos hlt]
      have hs' : (q :: l').Pairwise (fun a c => pyStrLt a.1 c.1 = true) :=
        (List.pairwise_cons.1 hs).2
      obtain ⟨hmem, hlb, htie⟩ := ih q hs'
      refine ⟨List.mem_cons_of_mem b hmem, ?_, ?_⟩
      · intro p hp
        rcases List.mem_cons.1 hp with hp | hp
        · rw [hp]
          exact le_trans (hlb q (List.mem_cons_self q l')) (le_of_lt hlt)
        · exact hlb p hp
      · intro p hp htiep
        rcases List.mem_cons.1 hp with hp | hp
        · exfalso
          have hq : (idxminFold q l').2 ≤ q.2 :=
            hlb q (List.mem_cons_self q l')
          rw [hp] at htiep
          exact absurd htiep.symm (ne_of_lt (lt_of_le_of_lt hq hlt))
        · exact htie p hp htiep
    · rw [hfold, if_neg hlt]
      have hq : b.2 ≤ q.2 := le_of_not_lt hlt
      have hsub : (b :: l').Pairwise (fun a c => pyStrLt a.1 c.1 = true) := by
        refine List.Pairwise.sublist ?_ hs
        exact List.Sublist.cons₂ b (List.sublist_cons_self q l')
      obtain ⟨hmem, hlb, htie⟩ := ih b hsub
      have hb2 : (idxminFold b l').2 ≤ b.2 := hlb b (List.mem_cons_self b l')
      refine ⟨?_, ?_, ?_⟩
      · rcases List.mem_cons.1 hmem with h | h
        · rw [h]; exact List.mem_cons_self b (q :: l')
        · exact List.mem_cons_of_mem b (List.mem_cons_of_mem q h)
      · intro p hp
        rcases List.mem_cons.1 hp with hp | hp
        · rw [hp]; exact hb2
        · rcases List.mem_cons.1 hp with hp | hp
          · rw [hp]; exact le_trans hb2 hq
          · exact hlb p (List.mem_cons_of_mem b hp)
      · intro p hp htiep
        rcases List.mem_cons.1 hp with hp | hp
        · rw [hp] at htiep ⊢
          exact htie b (List.mem_cons_self b l') htiep
        · rcases List.mem_cons.1 hp with hp | hp
          · rw [hp] at htiep ⊢
            have hbtie : (idxminFold b l').2 = b.2 :=
              le_antisymm hb2 (htiep ▸ hq)
            have hbest : idxminFold b l' = b := by
              rcases List.mem_cons.1 hmem with h | h
              · exact h
              · exfalso
                have hlt1 : pyStrLt b.1 (idxminFold b l').1 = true :=
                  (List.pairwise_cons.1 hsub).1 _ h
                have hle1 : pyStrLe (idxminFold b l').1 b.1 = true :=
                  htie b (List.mem_cons_self b l') hbtie.symm
                have := eq_of_pyStrLe_le _ _ hle1 (pyStrLe_of_lt _ _ hlt1)
                rw [this] at hlt1
                rw [pyStrLt_irrefl] at hlt1
                exact Bool.false_ne_true hlt1
            rw [hbest]
            exact pyStrLe_of_lt _ _ ((List.pairwise_cons.1 hs).1 q
              (List.mem_cons_self q l'))
          · exact htie p (List.mem_cons_of_mem b hp) htiep

theorem grouped_keys_sorted (rows : List FlowRow) :
    (grouped rows).Pairwise (fun a c => pyStrLt a.1 c.1 = true) := by
  rw [grouped, List.pairwise_map]
  exact sortedSyms_sorted rows

theorem shareList_keys_sorted (df : List FlowRow) (w : Int) :
    (shareList df w).Pairwise (fun a c => pyStrLt a.1 c.1 = true) := by
  rw [shareList, List.pairwise_map]
  exact grouped_keys_sorted _

theorem grouped_ne_nil (rows : List FlowRow) (h : rows ≠ []) :
    grouped rows ≠ [] := by
  rw [grouped]
  intro hmap
  exact sortedSyms_ne_nil rows h (List.map_eq_nil_iff.1 hmap)

theorem maxShare_cons_spec (s0 : String × Rat) (rest : List (String × Rat)) :
    (∃ p ∈ s0 :: rest, maxShare (s0 :: rest) = p.2)
    ∧ ∀ p ∈ s0 :: rest, p.2 ≤ maxShare (s0 :: rest) := by
  have hfold := foldlMax_spec (rest.map (·.2)) s0.2
  have hms : maxShare (s0 :: rest) = (rest.map (·.2)).foldl max s0.2 := rfl
  constructor
  · rcases hfold.1 with h | h
    · exact ⟨s0, List.mem_cons_self _ _, by rw [hms, h]⟩
    · obtain ⟨p, hp, hpv⟩ := List.mem_map.1 h
      exact ⟨p, List.mem_cons_of_mem s0 hp, by rw [hms, ← hpv]⟩
  · intro p hp
    rcases List.mem_cons.1 hp with hp | hp
    · rw [hp, hms]; exact hfold.2.1
    · rw [hms]; exact hfold.2.2 p.2 (List.mem_map_of_mem (·.2) hp)

theorem minShare_cons_spec (s0 : String × Rat) (rest : List (String × Rat)) :
    (∃ p ∈ s0 :: rest, minShare (s0 :: rest) = p.2)
    ∧ ∀ p ∈ s0 :: rest, minShare (s0 :: rest) ≤ p.2 := by
  have hfold := foldlMin_spec (rest.map (·.2)) s0.2
  have hms : minShare (s0 :: rest) = (rest.map (·.2)).foldl min s0.2 := rfl
  constructor
  · rcases hfold.1 with h | h
    · exact ⟨s0, List.mem_cons_self _ _, by rw [hms, h]⟩
    · obtain ⟨p, hp, hpv⟩ := List.mem_map.1 h
      exact ⟨p, List.mem_cons_of_mem s0 hp, by rw [hms, ← hpv]⟩
  · intro p hp
    rcases List.mem_cons.1 hp with hp | hp
    · rw [hp, hms]; exact hfold.2.1
    · rw [hms]; exact hfold.2.2 p.2 (List.mem_map_of_mem (·.2) hp)

/-- C6.  For every input batch and every fixed timeframe of the menu, if the
window slice holds no rows, or the total absolute flow of the window is
exactly zero, the multi-timeframe table contains the insufficient-data
sentinel row for that timeframe.  The computation is a total function (the
embedding returns a value on every input, mirroring that the Python code
raises on none), and the sentinel row fabricates no symbol: all its data
cells are the `"-"` placeholder (`none`). -/
theorem dominance_insufficient_data (df : List FlowRow) (label : String)
    (sec : Int) (hmem : (label, sec) ∈ TF_WINDOWS)
    (h : slice_window df sec = []
        ∨ total_abs (grouped (slice_window df sec)) = 0) :
    insufficientRow label ∈ compute_multi_tf_table df := by
  have hcbb : compute_bull_bear df sec = none := by
    rcases h with h | h
    · simp [compute_bull_bear, h]
    · simp only [compute_bull_bear]
      by_cases hs : slice_window df sec = []
      · simp [hs]
      · simp only [if_neg hs]
        by_cases hg : grouped (slice_window df sec) = []
        · simp [hg]
        · simp [hg, h]
  have hrow : tfRowFor df (label, sec) = insufficientRow label := by
    simp [tfRowFor, hcbb]
  rw [compute_multi_tf_table]
  exact hrow ▸ List.mem_map_of_mem (tfRowFor df) hmem

/-- Witness for C6 at the empty batch and the `"5m"` timeframe: the window
slice is empty and the table row is the sentinel. -/
theorem dominance_insufficient_witness :
    insufficientRow "5m" ∈ compute_multi_tf_table [] :=
  dominance_insufficient_data [] "5m" 300 (by decide) (Or.inl rfl)

/-- C7.  For every dominance window with at least one row and nonzero total
absolute flow, `_compute_bull_bear` returns the bull entry as the share
series' `idxmax` and the bear entry as its `idxmin`, where: the bull's share
is attained and maximal, the bear's share attained and minimal, and whenever
several symbols tie for the extremum the returned symbol is lexically least
among them (`pyStrLe` to every tying symbol). -/
theorem dominance_bull_bear_extremal (df : List FlowRow) (w : Int)
    (hne : slice_window df w ≠ [])
    (ht : total_abs (grouped (slice_window df w)) ≠ 0) :
    compute_bull_bear df w
      = some ((idxmax (shareList df w)).1, maxShare (shareList df w),
          (idxmin (shareList df w)).1, minShare (shareList df w))
    ∧ idxmax (shareList df w) ∈ shareList df w
    ∧ (∀ p ∈ shareList df w, p.2 ≤ (idxmax (shareList df w)).2)
    ∧ maxShare (shareList df w) = (idxmax (shareList df w)).2
    ∧ (∀ p ∈ shareList df w, p.2 = (idxmax (shareList df w)).2 →
        pyStrLe (idxmax (shareList df w)).1 p.1 = true)
    ∧ idxmin (shareList df w) ∈ shareList df w
    ∧ (∀ p ∈ shareList df w, (idxmin (shareList df w)).2 ≤ p.2)
    ∧ minShare (shareList df w) = (idxmin (shareList df w)).2
    ∧ (∀ p ∈ shareList df w, p.2 = (idxmin (shareList df w)).2 →
        pyStrLe (idxmin (shareList df w)).1 p.1 = true) := by
  have hg : grouped (slice_window df w) ≠ [] := grouped_ne_nil _ hne
  have heq : compute_bull_bear df w
      = some ((idxmax (shareList df w)).1, maxShare (shareList df w),
          (idxmin (shareList df w)).1, minShare (shareList df w)) := by
    simp only [compute_bull_bear, shareList, if_neg hne, if_neg hg, if_neg ht]
  refine ⟨heq, ?_⟩
  have hsorted := shareList_keys_sorted df w
  have hshare_ne : shareList df w ≠ [] := by
    simp only [shareList]
    intro hmap
    exact hg (List.map_eq_nil_iff.1 hmap)
  obtain ⟨s0, rest, hS⟩ : ∃ s0 rest, shareList df w = s0 :: rest := by
    cases hS : shareList df w with
    | nil => exact absurd hS hshare_ne
    | cons s0 rest => exact ⟨s0, rest, rfl⟩
  rw [hS] at hsorted ⊢
  have hmax := idxmaxFold_spec rest s0 hsorted
  have hmin := idxminFold_spec rest s0 hsorted
  have hxm : idxmax (s0 :: rest) = idxmaxFold s0 rest := rfl
  have hxn : idxmin (s0 :: rest) = idxminFold s0 rest := rfl
  rw [hxm, hxn]
  have hmaxeq : maxShare (s0 :: rest) = (idxmaxFold s0 rest).2 := by
    refine le_antisymm ?_ ?_
    · obtain ⟨p, hp, hpv⟩ := (maxShare_cons_spec s0 rest).1
      rw [hpv]
      exact hmax.2.1 p hp
    · exact (maxShare_cons_spec s0 rest).2 _ hmax.1
  have hmineq : minShare (s0 :: rest) = (idxminFold s0 rest).2 := by
    refine le_antisymm ?_ ?_
    · exact (minShare_cons_spec s0 rest).2 _ hmin.1
    · obtain ⟨p, hp, hpv⟩ := (minShare_cons_spec s0 rest).1
      rw [hpv]
      exact hmin.2.1 p hp
  exact ⟨hmax.1, hmax.2.1, hmaxeq, hmax.2.2, hmin.1, hmin.2.1, hmineq,
    hmin.2.2⟩

/-- Witness for C7 at a two-row batch where symbols `"B"` (appearing first)
and `"A"` tie with equal flow `5`: the returned bull symbol is the lexically
first of the tied pair, `"A"`. -/
theorem dominance_bull_bear_witness :
    compute_bull_bear [⟨0, "B", 5⟩, ⟨0, "A", 5⟩] 60
      = some ((idxmax (shareList [⟨0, "B", 5⟩, ⟨0, "A", 5⟩] 60)).1,
          maxShare (shareList [⟨0, "B", 5⟩, ⟨0, "A", 5⟩] 60),
          (idxmin (shareList [⟨0, "B", 5⟩, ⟨0, "A", 5⟩] 60)).1,
          minShare (shareList [⟨0, "B", 5⟩, ⟨0, "A", 5⟩] 60))
    ∧ (idxmax (shareList [⟨0, "B", 5⟩, ⟨0, "A", 5⟩] 60)).1 = "A" :=
  ⟨(dominance_bull_bear_extremal [⟨0, "B", 5⟩, ⟨0, "A", 5⟩] 60
      (by decide)
      (by
        norm_num [total_abs, grouped, slice_window, maxTimestamp, sortedSyms,
          insertSortedSym, symSum, pyStrLt, charListLt,
          show ¬ ('B' < 'A') from by decide,
          show ("B" : String) ≠ "A" from by decide,
          show ("A" : String) ≠ "B" from by decide])).1,
    by
      norm_num [shareList, total_abs, grouped, slice_window, maxTimestamp,
        sortedSyms, insertSortedSym, symSum, idxmax, idxmaxFold, pyStrLt,
        charListLt,
        show ¬ ('B' < 'A') from by decide,
        show ("B" : String) ≠ "A" from by decide,
        show ("A" : String) ≠ "B" from by decide]⟩

theorem mcapLookup_num_or_nan (m : List (String × Option Rat)) (s : String) :
    (∃ q, mcapLookup m s = .num q) ∨ mcapLookup m s = .nan := by
  rw [mcapLookup]
  rcases getAssoc m s with _ | (_ | q)
  · exact Or.inr rfl
  · exact Or.inr rfl
  · exact Or.inl ⟨q, rfl⟩

theorem getCell_setAssoc_self (r : List (String × PVal)) (c : String)
    (v : PVal) : getCell (setAssoc r c v) c = v := by
  simp [getCell, getAssoc_setAssoc_self]

theorem getCell_setAssoc_ne (r : List (String × PVal)) (c c' : String)
    (v : PVal) (h : c ≠ c') : getCell (setAssoc r c v) c' = getCell r c' := by
  simp [getCell, getAssoc_setAssoc_ne r c c' v h]

/-- The cell that `normalize_by_mcap` writes into `f"{col}_norm"`, read back:
fill-zero of clean-inf of the division of the row's `col` cell by the looked
up market cap of the upper-cased symbol. -/
theorem normRowFn_norm_cell (m : List (String × Option Rat)) (col : String)
    (r : List (String × PVal)) (hc1 : col ≠ "symbol")
    (hc2 : col ≠ "mcap_usd") :
    getCell (normRowFn m col r) (col ++ "_norm")
      = fillZero (cleanInf (divPVal (getCell r col)
          (mcapLookup m (pyUpper (pvalPyStr (getCell r "symbol")))))) := by
  have hns : "symbol" ≠ col := fun h => hc1 h.symm
  have hnm : "mcap_usd" ≠ col := fun h => hc2 h.symm
  have h1 : ∀ (v : PVal) (r' : List (String × PVal)),
      getCell (setAssoc r' "symbol" v) col = getCell r' col :=
    fun v r' => getCell_setAssoc_ne r' "symbol" col v hns
  have h2 : ∀ (v : PVal) (r' : List (String × PVal)),
      getCell (setAssoc r' "mcap_usd" v) col = getCell r' col :=
    fun v r' => getCell_setAssoc_ne r' "mcap_usd" col v hnm
  simp only [normRowFn, getCell_setAssoc_self, h1, h2, pvalPyStr]

/-- C1, amended.  `normalize_by_mcap` acts row-by-row (so each symbol's
normalized value depends only on its own row and leaves every other symbol's
value unaffected), and the normalized cell of a symbol whose market cap is
missing, `None`, or zero, or whose `col` cell is not a finite number, is the
*numeric float `0.0`* — not an "undefined" sentinel: the division's `NaN`/
`±inf` results are explicitly replaced and then filled with `0.0`
(lines 57-59).  Only a finite cell divided by a nonzero market cap yields the
true ratio. -/
theorem normalize_by_mcap_fills_zero (f : PFrame)
    (m : List (String × Option Rat)) (col : String) (hrows : f.rows ≠ [])
    (hsym : "symbol" ∈ f.cols) (hcol : col ∈ f.cols) (hc1 : col ≠ "symbol")
    (hc2 : col ≠ "mcap_usd") :
    (normalize_by_mcap f m col).rows = f.rows.map (normRowFn m col)
    ∧ (∀ r, (¬ ∃ a b, getCell r col = .num a
          ∧ mcapLookup m (pyUpper (pvalPyStr (getCell r "symbol"))) = .num b
          ∧ b ≠ 0) →
        getCell (normRowFn m col r) (col ++ "_norm") = .num 0)
    ∧ ∀ r a b, getCell r col = .num a →
        mcapLookup m (pyUpper (pvalPyStr (getCell r "symbol"))) = .num b →
        b ≠ 0 → getCell (normRowFn m col r) (col ++ "_norm") = .num (a / b) := by
  refine ⟨?_, ?_, ?_⟩
  · rw [normalize_by_mcap, if_neg hrows, if_neg (not_not_intro ⟨hsym, hcol⟩)]
    simp only [setColBy, List.map_map]
    rfl
  · intro r hno
    rw [normRowFn_norm_cell m col r hc1 hc2]
    rcases mcapLookup_num_or_nan m (pyUpper (pvalPyStr (getCell r "symbol")))
      with ⟨b, hb⟩ | hb
    · rw [hb]
      cases hcell : getCell r col with
      | num a =>
        have hb0 : b = 0 := by
          by_contra h0
          exact hno ⟨a, b, hcell, hb, h0⟩
        subst hb0
        by_cases ha : a = 0 <;> simp [divPVal, ha, cleanInf, fillZero]
      | str s => simp [divPVal, cleanInf, fillZero]
      | nan => simp [divPVal, cleanInf, fillZero]
      | inf p =>
        by_cases hb0 : b = 0
        · simp [divPVal, hb0, cleanInf, fillZero]
        · by_cases hbp : 0 < b <;>
            simp [divPVal, hb0, hbp, cleanInf, fillZero]
    · rw [hb]
      cases hcell : getCell r col <;> simp [divPVal, cleanInf, fillZero]
  · intro r a b ha hb hb0
    rw [normRowFn_norm_cell m col r hc1 hc2, ha, hb]
    simp [divPVal, hb0, cleanInf, fillZero]

/-- Witness for C1's amended theorem: a two-row batch over
`mcap_map = [("BTCUSDT", 2)]`.  The row with unknown symbol `"FOO"` gets the
numeric zero; the row with symbol `"btcusdt"` (upper-cased to the known key)
gets its value divided by the market cap. -/
theorem normalize_by_mcap_witness :
    getCell (normRowFn [("BTCUSDT", some 2)] "vol_delta"
        [("symbol", PVal.str "FOO"), ("vol_delta", PVal.num 5)])
      "vol_delta_norm" = PVal.num 0
    ∧ getCell (normRowFn [("BTCUSDT", some 2)] "vol_delta"
        [("symbol", PVal.str "btcusdt"), ("vol_delta", PVal.num 6)])
      "vol_delta_norm" = PVal.num (6 / 2) := by
  constructor
  · refine (normalize_by_mcap_fills_zero
      ⟨["symbol", "vol_delta"],
        [[("symbol", PVal.str "FOO"), ("vol_delta", PVal.num 5)]]⟩
      [("BTCUSDT", some 2)] "vol_delta" (by decide) (by decide) (by decide)
      (by decide) (by decide)).2.1 _ ?_
    intro h
    obtain ⟨a, b, _, hb, _⟩ := h
    have hlk : mcapLookup [("BTCUSDT", some 2)]
        (pyUpper (pvalPyStr (getCell
          [("symbol", PVal.str "FOO"), ("vol_delta", PVal.num 5)] "symbol")))
        = PVal.nan := by decide
    rw [hlk] at hb
    exact PVal.noConfusion hb
  · exact (normalize_by_mcap_fills_zero
      ⟨["symbol", "vol_delta"],
        [[("symbol", PVal.str "btcusdt"), ("vol_delta", PVal.num 6)]]⟩
      [("BTCUSDT", some 2)] "vol_delta" (by decide) (by decide) (by decide)
      (by decide) (by decide)).2.2 _ 6 2 (by decide) (by decide) (by norm_num)

/-- Counterexample to C1 as stated: one row with symbol `"BTCUSDT"` and
`vol_delta = 5`, empty market-cap map (so the cap is missing).  The
normalized cell is the numeric value `0.0` — a `PVal.num`, not the `NaN`
sentinel — so a missing market cap does *not* yield "undefined". -/
theorem normalize_by_mcap_counterexample :
    (normalize_by_mcap
        ⟨["symbol", "vol_delta"],
          [[("symbol", PVal.str "BTCUSDT"), ("vol_delta", PVal.num 5)]]⟩
        [] "vol_delta").rows
      = [[("symbol", PVal.str "BTCUSDT"), ("vol_delta", PVal.num 5),
          ("mcap_usd", PVal.nan), ("vol_delta_norm", PVal.num 0)]]
    ∧ PVal.num 0 ≠ PVal.nan := by decide

theorem hget_append (h l : List PFrame) (i : Nat)
    (hi : i < h.length) : hget (h ++ l) i = hget h i := by
  simp [hget, List.getD, List.getElem?_append_left hi]

theorem hget_set_ne (h : List PFrame) (j : Nat) (f : PFrame) (i : Nat)
    (hne : j ≠ i) : hget (h.set j f) i = hget h i := by
  simp [hget, List.getD, List.getElem?_set_ne hne]

/-- C10.  None of `compute_vdelta`, `normalize_by_mcap`,
`cross_sectional_zscore` mutates the frame object passed to it: on the
guard paths the input is returned as-is, untouched; on the computing paths
every write targets the `copy()` (or a fresh method result), so the caller's
object holds exactly the same frame value after the call as before it. -/
theorem feature_fns_no_input_mutation (h : List PFrame) (i : Nat)
    (m : List (String × Option Rat)) (col ocol : String)
    (hi : i < h.length) :
    hget (compute_vdelta_heap h i).1 i = hget h i
    ∧ hget (normalize_by_mcap_heap h i m col).1 i = hget h i
    ∧ hget (cross_sectional_zscore_heap h i col ocol).1 i = hget h i := by
  have hlem : ∀ l : List PFrame, hget (h ++ l) i = hget h i :=
    fun l => hget_append h l i hi
  refine ⟨?_, ?_, ?_⟩
  · simp only [compute_vdelta_heap]
    split
    · rfl
    · simp [hlem]
  · simp only [normalize_by_mcap_heap]
    split
    · rfl
    · split
      · rfl
      · simp [hlem]
  · simp only [cross_sectional_zscore_heap]
    split
    · rfl
    · simp [hlem]

/-- Witness for C10 at a one-frame heap holding a one-row frame with the
historical-bars schema: each of the three calls leaves the frame at index 0
exactly as it was. -/
theorem feature_fns_no_input_mutation_witness :
    hget (compute_vdelta_heap
        [⟨["symbol", "timestamp", "volume"],
          [[("symbol", PVal.str "BTC"), ("timestamp", PVal.num 1),
            ("volume", PVal.num 3)]]⟩] 0).1 0
      = hget [⟨["symbol", "timestamp", "volume"],
          [[("symbol", PVal.str "BTC"), ("timestamp", PVal.num 1),
            ("volume", PVal.num 3)]]⟩] 0
    ∧ hget (normalize_by_mcap_heap
        [⟨["symbol", "timestamp", "volume"],
          [[("symbol", PVal.str "BTC"), ("timestamp", PVal.num 1),
            ("volume", PVal.num 3)]]⟩] 0 [("BTCUSDT", some 2)] "volume").1 0
      = hget [⟨["symbol", "timestamp", "volume"],
          [[("symbol", PVal.str "BTC"), ("timestamp", PVal.num 1),
            ("volume", PVal.num 3)]]⟩] 0
    ∧ hget (cross_sectional_zscore_heap
        [⟨["symbol", "timestamp", "volume"],
          [[("symbol", PVal.str "BTC"), ("timestamp", PVal.num 1),
            ("volume", PVal.num 3)]]⟩] 0 "volume" "volume_z").1 0
      = hget [⟨["symbol", "timestamp", "volume"],
          [[("symbol", PVal.str "BTC"), ("timestamp", PVal.num 1),
            ("volume", PVal.num 3)]]⟩] 0 :=
  feature_fns_no_input_mutation
    [⟨["symbol", "timestamp", "volume"],
      [[("symbol", PVal.str "BTC"), ("timestamp", PVal.num 1),
        ("volume", PVal.num 3)]]⟩] 0 [("BTCUSDT", some 2)] "volume" "volume_z"
    (by decide)

/-- C9 (code bug).  The frame that reaches the flow-share block carries
exactly the columns the pipeline built — `symbol, vol_delta,
vdelta_notional, last_price, timestamp, price, volume, mcap_usd,
vol_delta_norm, vol_delta_z` — but no `vdelta_eff` (no upstream step ever
creates it).  On such a frame (here: one live BTCUSDT row) the block raises
`KeyError: vdelta_eff` at line 197 instead of producing the flow-share map
the claim describes.  (The function would in fact already have raised at
line 109, `df["avg_1s_notional"]`, before reaching this block.) -/
theorem flowshare_missing_column_bug :
    flowshareBlock
      ⟨["symbol", "vol_delta", "vdelta_notional", "last_price", "timestamp",
        "price", "volume", "mcap_usd", "vol_delta_norm", "vol_delta_z"],
        [[("symbol", PVal.str "BTCUSDT"), ("vol_delta", PVal.num 2),
          ("vdelta_notional", PVal.num 100), ("last_price", PVal.num 50),
          ("timestamp", PVal.num 0), ("price", PVal.num 50),
          ("volume", PVal.num 100), ("mcap_usd", PVal.num 1300),
          ("vol_delta_norm", PVal.num 0), ("vol_delta_z", PVal.nan)]]⟩
      ["BTCUSDT"] 60
      = .error "KeyError: vdelta_eff" := by
  have h1 : ("timestamp" : String)
      ∈ ["symbol", "vol_delta", "vdelta_notional", "last_price", "timestamp",
        "price", "volume", "mcap_usd", "vol_delta_norm", "vol_delta_z"] := by
    decide
  have h2 : ("symbol" : String)
      ∈ ["symbol", "vol_delta", "vdelta_notional", "last_price", "timestamp",
        "price", "volume", "mcap_usd", "vol_delta_norm", "vol_delta_z"] := by
    decide
  have h3 : ("vdelta_eff" : String)
      ∉ ["symbol", "vol_delta", "vdelta_notional", "last_price", "timestamp",
        "price", "volume", "mcap_usd", "vol_delta_norm", "vol_delta_z"] := by
    decide
  norm_num [flowshareBlock, getCell, getAssoc, pvalNum, h1, h2, h3,
    show ("symbol" : String) ≠ "timestamp" from by decide,
    show ("vol_delta" : String) ≠ "timestamp" from by decide,
    show ("vdelta_notional" : String) ≠ "timestamp" from by decide,
    show ("last_price" : String) ≠ "timestamp" from by decide]

end VDelta

